import Mathlib

/-!
Shallow embedding of `ztk.py`, a zettelkasten-to-website generator, together
with proofs checking the natural-language specification against the code.

Strings are modelled as `List Char` in the core algorithms (the regex-driven
parts of the source are re-implemented character by character); `String`
wrappers are used at the outer interfaces.  Fallible code (Python exceptions)
is modelled with `Option`.
-/

namespace Ztk

/-! ### Character classes

`pyIsSpace` models Python's regex class `\s` on ASCII input
(`[ \t\n\r\f\v]`); `isTagChar` models the class `[a-zA-Z0-9-]` from
`TAG_REGEX = '(?<!\S)#([a-zA-Z0-9\-]+)'` (ztk.py line 12). -/

def pyIsSpace (c : Char) : Bool :=
  c = ' ' || c = '\t' || c = '\n' || c = '\r' || c = '\x0b' || c = '\x0c'

def isTagChar (c : Char) : Bool :=
  c.isAlpha || c.isDigit || c = '-'

/-! ### Tag extraction (`Node._infer_tags`, ztk.py lines 157-158)

`re.findall(TAG_REGEX, content)` scans left to right; at each `#` whose
preceding character is not a non-space (`(?<!\S)`), it takes the maximal
run of tag characters (greedy `+`) and continues scanning after the match.
The boolean argument `ok` records whether the lookbehind succeeds at the
current position (start of string, or previous character is whitespace). -/

def findTagsAux : Nat → Bool → List Char → List (List Char)
  | 0, _, _ => []
  | _ + 1, _, [] => []
  | fuel + 1, ok, c :: rest =>
    if c = '#' ∧ ok = true then
      let run := rest.takeWhile isTagChar
      if run.isEmpty then findTagsAux fuel false rest
      else run :: findTagsAux fuel false (rest.dropWhile isTagChar)
    else findTagsAux fuel (pyIsSpace c) rest

def findTags (s : List Char) : List (List Char) :=
  findTagsAux (s.length + 1) true s

/-- Lookbehind condition `(?<!\S)`: the character before the `#`, if any,
is whitespace; at the start of the scanned text it is the flag `ok`. -/
def preCond (ok : Bool) (pre : List Char) : Prop :=
  match pre.getLast? with
  | none => ok = true
  | some c => pyIsSpace c = true

/-- Maximality of the greedy `+`: the character after the run, if any, is
not a tag character. -/
def postCond (post : List Char) : Prop :=
  match post.head? with
  | none => True
  | some c => isTagChar c = false

/-- Specification-side characterization of a tag occurrence: a nonempty run
of tag characters preceded by `#`, where the character before the `#` (if
any) is whitespace and the character after the run (if any) is not a tag
character. -/
def specTagAt (ok : Bool) (s t : List Char) : Prop :=
  t ≠ [] ∧ (∀ c ∈ t, isTagChar c = true) ∧
  ∃ pre post, s = pre ++ '#' :: (t ++ post) ∧ preCond ok pre ∧ postCond post

def specTag (s t : List Char) : Prop := specTagAt true s t

/-! ### Title inference (`Node._infer_title`, ztk.py lines 153-155)

`re.search(r'^\s*#\s+(.+)', content, re.MULTILINE)`.  With `re.MULTILINE`,
`^` matches at the string start and after every newline.  `\s` matches
newlines, so the `\s*`/`\s+` runs may cross line boundaries; `.` does not
match newlines, so the captured group stays on one line.  `tryAt` decides
whether the pattern matches at a given line-start position and returns the
captured group; `headingGo` walks successive line starts (leftmost match). -/

def tryAt (s : List Char) : Option (List Char) :=
  match s.dropWhile pyIsSpace with
  | [] => none
  | c :: u =>
    if c = '#' then
      let w := u.takeWhile pyIsSpace
      let v := u.dropWhile pyIsSpace
      if w.isEmpty then none
      else if v.isEmpty then
        -- `\s+` is greedy but backtracks one character so that `(.+)` can
        -- match; this only succeeds when the run has length ≥ 2 and its
        -- last character is not a newline.
        if 2 ≤ w.length ∧ w.getLast? ≠ some '\n' then
          (w.getLast?).map (fun c => [c])
        else none
      else some (v.takeWhile (fun c => c ≠ '\n'))
    else none

def afterNL : List Char → Option (List Char)
  | [] => none
  | c :: r => if c = '\n' then some r else afterNL r

def headingGo : Nat → List Char → Option (List Char)
  | 0, _ => none
  | fuel + 1, s =>
    match tryAt s with
    | some g => some g
    | none =>
      match afterNL s with
      | some r => headingGo fuel r
      | none => none

def inferTitle (content id : String) : String :=
  match headingGo (content.length + 1) content.data with
  | some g => String.mk g
  | none => id

/-! ### Specification-side title: split into lines, find the first line of
the form `whitespace* '#' whitespace+ text`, and return its text (to the end
of that line); fall back to the id. -/

def splitOnC (sep : Char) : List Char → List (List Char)
  | [] => [[]]
  | d :: rest =>
    if d = sep then [] :: splitOnC sep rest
    else
      match splitOnC sep rest with
      | [] => [[d]]
      | g :: gs => (d :: g) :: gs

def linesOf (s : List Char) : List (List Char) := splitOnC '\n' s

def lineHeading? (L : List Char) : Option (List Char) :=
  match L.dropWhile pyIsSpace with
  | [] => none
  | c :: u =>
    if c = '#' then
      let w := u.takeWhile pyIsSpace
      let v := u.dropWhile pyIsSpace
      if w.isEmpty ∨ v.isEmpty then none else some v
    else none

def specTitle (content id : String) : String :=
  match (linesOf content.data).findSome? lineHeading? with
  | some g => String.mk g
  | none => id

/-- Bare heading-marker line: only whitespace, `#`, and trailing whitespace.
On such a line the regex's `\s+` can cross the line break, which is where
`inferTitle` and `specTitle` can disagree. -/
def bareMarker (L : List Char) : Bool :=
  match L.dropWhile pyIsSpace with
  | [] => false
  | c :: u => c = '#' && u.all pyIsSpace

/-! ### Path model (`pathlib.PurePosixPath.parts`, `os.path.join`)

`pyParts` models `pathlib.Path(s).parts` on POSIX: duplicate slashes and
`.` components are dropped; a leading `/` becomes the root part `"/"`
(exactly two leading slashes give the special root `"//"`).  `parentParts`
models `.parent.parts`; `osJoin` models `os.path.join(*parts)`, which
raises a `TypeError` when given no arguments (modelled as `none`) and
restarts at any absolute component. -/

def pyParts (s : List Char) : List (List Char) :=
  let segs := (splitOnC '/' s).filter (fun x => x ≠ [] ∧ x ≠ ['.'])
  if s.head? = some '/' then
    if (s.drop 1).head? = some '/' ∧ (s.drop 2).head? ≠ some '/' then
      ['/', '/'] :: segs
    else ['/'] :: segs
  else segs

def parentParts : List (List Char) → List (List Char)
  | [] => []
  | r :: rest =>
    if r = ['/'] ∨ r = ['/', '/'] then r :: rest.dropLast
    else (r :: rest).dropLast

/-- Parts of `pathlib.Path('/') / current_dir` (ztk.py line 178). -/
def rootJoin (cd : List Char) : List (List Char) :=
  if cd.head? = some '/' then pyParts cd else ['/'] :: pyParts cd

def joinOne (a b : List Char) : List Char :=
  if b.head? = some '/' then b
  else if a = [] ∨ a.getLast? = some '/' then a ++ b
  else a ++ '/' :: b

def osJoin : List (List Char) → Option (List Char)
  | [] => none
  | x :: xs => some (xs.foldl joinOne x)

def stripCommon : List (List Char) → List (List Char) →
    List (List Char) × List (List Char)
  | a :: as, b :: bs =>
    if a = b then stripCommon as bs else (a :: as, b :: bs)
  | as, bs => (as, bs)

/-- `resolve_path(path, relative_to)` (ztk.py lines 166-172).  The second
argument is passed as the parts of the `relative_to` path object. -/
def resolve_path (path : List Char) (relParts : List (List Char)) :
    Option (List Char) :=
  let pr := stripCommon (pyParts path) (parentParts relParts)
  osJoin (List.replicate pr.2.length ['.', '.'] ++ pr.1)

/-! ### Link rewriting (`resolve_links`, ztk.py lines 174-191)

Two `re.sub` passes.  Pass 1 rewrites `[label](target)` with a slash-free
target to `[label](/node/target)`; pass 2 rewrites `[label](/target)` via
`resolve` (path relativization plus extension appending).  The matcher
below implements Python's backtracking semantics for these two concrete
patterns: `\[(.+?)\]\(([^/]+?)\)` and `\[(.+?)\]\((/.+?)\)`. -/

/-- Matcher for `([^/]+?)\)` (lazy): the target is the run up to the first
`)` provided no `/` occurs before it.  `acc` holds the reversed target. -/
def scanTgt1 : List Char → List Char → Option (List Char × List Char)
  | acc, d :: rest =>
    if d = ')' then some (acc.reverse, rest)
    else if d = '/' then none
    else scanTgt1 (d :: acc) rest
  | _, [] => none

def tgt1 : List Char → Option (List Char × List Char)
  | [] => none
  | c :: rest => if c = '/' then none else scanTgt1 [c] rest

/-- Matcher for `(/.+?)\)` (lazy): a `/` followed by at least one
non-newline character, ending at the first feasible `)`. -/
def scanTgt2 : List Char → List Char → Option (List Char × List Char)
  | acc, d :: rest =>
    if d = ')' ∧ 2 ≤ acc.length then some (acc.reverse, rest)
    else if d = '\n' then none
    else scanTgt2 (d :: acc) rest
  | _, [] => none

def tgt2 (s : List Char) : Option (List Char × List Char) :=
  match s with
  | [] => none
  | c :: rest => if c = '/' then scanTgt2 ['/'] rest else none

/-- Matcher for the label `(.+?)\]\(` followed by a target matcher, with
the backtracking of the lazy `.+?`: at each `](` boundary try the target;
on failure extend the label (which may not contain a newline). -/
def labScan (tgtFn : List Char → Option (List Char × List Char)) :
    Nat → List Char → List Char →
    Option (List Char × List Char × List Char)
  | 0, _, _ => none
  | fuel + 1, acc, s =>
    match s with
    | [] => none
    | c :: rest =>
      if c = ']' ∧ rest.head? = some '(' then
        match tgtFn rest.tail with
        | some (t, r) => some (acc.reverse, t, r)
        | none => labScan tgtFn fuel (']' :: acc) rest
      else if c = '\n' then none
      else labScan tgtFn fuel (c :: acc) rest

def matchAt (tgtFn : List Char → Option (List Char × List Char))
    (s : List Char) : Option (List Char × List Char × List Char) :=
  match s with
  | c0 :: c :: rest =>
    if c0 = '[' ∧ c ≠ '\n' then labScan tgtFn (rest.length + 1) [c] rest
    else none
  | _ => none

/-- Global substitution in the style of `re.sub`: scan left to right, at
each position try a match; replace and continue after the match, else copy
one character.  The replacement function may fail (Python exception). -/
def subAll (rep : List Char → List Char → Option (List Char))
    (tgtFn : List Char → Option (List Char × List Char)) :
    Nat → List Char → Option (List Char)
  | 0, _ => none
  | _ + 1, [] => some []
  | fuel + 1, c :: rest =>
    match matchAt tgtFn (c :: rest) with
    | some (lab, tgt, after) =>
      match rep lab tgt with
      | some r =>
        match subAll rep tgtFn fuel after with
        | some tail => some (r ++ tail)
        | none => none
      | none => none
    | none =>
      match subAll rep tgtFn fuel rest with
      | some tail => some (c :: tail)
      | none => none

/-- Python `path.split('/')[-1]`. -/
def lastSeg (p : List Char) : List Char := (splitOnC '/' p).getLastD []

/-- The extension-appending step of `resolve` (ztk.py lines 179-182). -/
def applyExt (ext : Option (List Char)) (p : List Char) : List Char :=
  match ext with
  | none => p
  | some e =>
    if p.getLast? = some '/' then p
    else if '.' ∈ lastSeg p then p
    else p ++ '.' :: e

/-- The body of `resolve` (ztk.py lines 175-183) applied to one matched
target. -/
def resolveTarget (cd : Option (List Char)) (ext : Option (List Char))
    (tgt : List Char) : Option (List Char) :=
  match cd with
  | none => some (applyExt ext tgt)
  | some c => (resolve_path tgt (rootJoin c)).map (applyExt ext)

def rep1 (lab tgt : List Char) : Option (List Char) :=
  some ('[' :: lab ++ ']' :: '(' :: ('/' :: 'n' :: 'o' :: 'd' :: 'e' :: '/' :: tgt) ++ [')'])

def rep2 (cd ext : Option (List Char)) (lab tgt : List Char) :
    Option (List Char) :=
  (resolveTarget cd ext tgt).map
    (fun p => '[' :: lab ++ ']' :: '(' :: p ++ [')'])

/-- `resolve_links(md, current_dir, extension)` (ztk.py lines 174-191). -/
def resolve_links (md : List Char) (cd ext : Option (List Char)) :
    Option (List Char) :=
  match subAll rep1 tgt1 (md.length + 1) md with
  | none => none
  | some s1 => subAll (rep2 cd ext) tgt2 (s1.length + 1) s1

/-- String-level wrapper. -/
def resolveLinksStr (md : String) (cd ext : Option String) :
    Option String :=
  (resolve_links md.data (cd.map String.data) (ext.map String.data)).map
    String.mk

/-! ### Notes (`Node`, ztk.py lines 128-158)

A `Node` is built from its path (the id) and the file's content; title and
tags are derived at construction.  `set(re.findall(...))` is modelled as a
deduplicated list; Python's set iteration order is unspecified, so nothing
below depends on the order of `tags`, only on membership. -/

structure Node where
  id : String
  content : String
  title : String
  tags : List String
deriving DecidableEq, Repr

def mkNode (id content : String) : Node :=
  ⟨id, content, inferTitle content id,
    ((findTags content.data).map String.mk).dedup⟩

/-- `Node.as_entry` (ztk.py lines 150-151). -/
def asEntry (n : Node) : String :=
  "<small>" ++ n.id ++ "</small> [" ++ n.title ++ "](" ++ n.id ++ ")"

/-- `node_list` (ztk.py lines 160-164). -/
def node_list (nodes : List Node) (title : String) : String :=
  ("# " ++ title ++ "\n\n*(generated automatically)*\n\n") ++
    "\n".intercalate (nodes.map (fun n => "- " ++ asEntry n))

/-! ### Sorting (Python `sorted`)

Python's `sorted` is stable; with `reverse=True` equal-key elements also
keep their original relative order.  Both directions are modelled by
insertion sort, which has the same extensional behaviour. -/

/-- Stable descending insertion (`sorted(..., reverse=True)`): `x` is
placed before the first element whose key is not greater. -/
def insRev (ltb : α → α → Bool) (x : α) : List α → List α
  | [] => [x]
  | y :: ys => if ltb x y then y :: insRev ltb x ys else x :: y :: ys

def sortRevB (ltb : α → α → Bool) : List α → List α
  | [] => []
  | x :: xs => insRev ltb x (sortRevB ltb xs)

/-- Stable ascending insertion (`sorted(...)`). -/
def insAsc (ltb : α → α → Bool) (x : α) : List α → List α
  | [] => [x]
  | y :: ys => if ltb x y then x :: y :: ys else y :: insAsc ltb x ys

def sortAscB (ltb : α → α → Bool) : List α → List α
  | [] => []
  | x :: xs => insAsc ltb x (sortAscB ltb xs)

/-- Lexicographic comparison of character lists by code point — the
semantics of Python's `<` on strings (and of Lean's `<` on `String`,
proved below in `strLtb_iff`). -/
def charsLtb : List Char → List Char → Bool
  | [], [] => false
  | [], _ :: _ => true
  | _ :: _, [] => false
  | a :: as, b :: bs =>
    if a < b then true else if b < a then false else charsLtb as bs

def strLtb (a b : String) : Bool := charsLtb a.data b.data

/-! ### The graph (`Rete`, ztk.py lines 14-126)

`self.nodes` is a dict id → Node; in this program the key always equals
`node.id` (`read_dir`, ztk.py line 217), so the graph is modelled as a
`List Node` whose ids are the dict keys, in insertion order.  The derived
tag index is an insertion-ordered association list tag → list of ids
(modelling dict tag → set of ids). -/

/-- One `tags.setdefault(tag, set()); tag_set.add(name)` step
(ztk.py lines 118-119). -/
def addTag : List (String × List String) → String → String →
    List (String × List String)
  | [], name, t => [(t, [name])]
  | p :: ps, name, t =>
    if p.1 = t then (p.1, if name ∈ p.2 then p.2 else p.2 ++ [name]) :: ps
    else p :: addTag ps name t

def addAll (acc : List (String × List String)) (name : String) :
    List String → List (String × List String)
  | [] => acc
  | t :: ts => addAll (addTag acc name t) name ts

def genGo (acc : List (String × List String)) :
    List Node → List (String × List String)
  | [] => acc
  | n :: ns => genGo (addAll acc n.id n.tags) ns

/-- `Rete._generate_tags` (ztk.py lines 114-120). -/
def generateTags (nodes : List Node) : List (String × List String) :=
  genGo [] nodes

/-- `Rete._infer_top_node` (ztk.py lines 122-126): `min` by id over the
nodes tagged `top`; Python's `min` keeps the first of equal keys. -/
def inferTopNode (nodes : List Node) : Option Node :=
  match nodes.filter (fun n => "top" ∈ n.tags) with
  | [] => none
  | n :: ns =>
    some (ns.foldl (fun acc m => if strLtb m.id acc.id then m else acc) n)

/-- Dict lookup `self.nodes.get(name)` under key = id. -/
def lookupNode (nodes : List Node) (i : String) : Option Node :=
  nodes.find? (fun n => n.id = i)

/-- Association-list lookup `self.tags[tag]`. -/
def lookupTag : List (String × List String) → String → List String
  | [], _ => []
  | p :: ps, t => if p.1 = t then p.2 else lookupTag ps t

def noNodesMsg : String := "# All nodes\n\nThere are no nodes here.\n\n"

/-- `Rete.all_nodes` (ztk.py lines 80-84): ids sorted descending, mapped
back to their nodes. -/
def allNodesStr (nodes : List Node) : String :=
  if nodes.isEmpty then noNodesMsg
  else
    node_list
      ((sortRevB strLtb (nodes.map Node.id)).filterMap (lookupNode nodes))
      "All nodes"

/-- `Rete.top` (ztk.py lines 52-55). -/
def topStr (nodes : List Node) : String :=
  match inferTopNode nodes with
  | none => allNodesStr nodes
  | some n => n.content

/-- `Rete.tag` (ztk.py lines 57-59). -/
def tagPage (nodes : List Node) (t : String) : String :=
  node_list
    ((sortRevB strLtb (lookupTag (generateTags nodes) t)).filterMap
      (lookupNode nodes))
    ("#" ++ t)

/-- The pairs `(tag, freq)` of `freqs.items()` (ztk.py line 68). -/
def freqList (nodes : List Node) : List (String × Nat) :=
  (generateTags nodes).map (fun p => (p.1, p.2.length))

/-- Python `max` over a nonempty collection of strings. -/
def listMax : List String → String
  | [] => ""
  | x :: xs => xs.foldl (fun a b => if strLtb a b then b else a) x

/-- `freq_sort_key` (ztk.py lines 62-65): the pair
`(freq, max(self.tags[tag]))`. -/
def freqKeyOf (tg : List (String × List String)) (p : String × Nat) :
    Nat × String :=
  (p.2, listMax (lookupTag tg p.1))

/-- Python `<` on `(int, str)` tuples. -/
def keyLtb (a b : Nat × String) : Bool :=
  a.1 < b.1 || (a.1 = b.1 && strLtb a.2 b.2)

/-- The list `freqs_sorted` (ztk.py line 69). -/
def freqSorted (nodes : List Node) : List (String × Nat) :=
  let tg := generateTags nodes
  sortRevB (fun x y => keyLtb (freqKeyOf tg x) (freqKeyOf tg y))
    (freqList nodes)

/-- `Rete.tag_index` (ztk.py lines 61-78). -/
def tagIndexStr (nodes : List Node) : String :=
  let tg := generateTags nodes
  let alphabetical :=
    " ".intercalate
      ((sortAscB strLtb (tg.map Prod.fst)).map (fun t => "#" ++ t))
  let byFreq :=
    " ".intercalate
      ((freqSorted nodes).map
        (fun p => "#" ++ p.1 ++ "<small>(" ++ toString p.2 ++ ")</small>"))
  "# Tag index\n\n*(generated automatically)*\n\n## Alphabetically\n\n" ++
    alphabetical ++ "\n\n## By frequency\n\n" ++ byFreq ++ "\n\n"

/-! ### Export (`Rete.export_as_website`, ztk.py lines 22-50)

`exportJobs` is the list of `(path, markdown)` jobs handed to
`_export_html`, in order.  Which files actually get written is modelled
below by `exportWrites`: each job's markdown goes through the tag-linking
substitution, the navigation bar and `resolve_links`, and a
`resolve_links` failure propagates out of `export_as_website`, aborting
all remaining writes. -/

def exportJobs (nodes : List Node) (style : Option String) :
    List (String × String) :=
  (if nodes.isEmpty then []
   else
     nodes.map (fun n => ("node/" ++ n.id ++ ".html", n.content)) ++
       [("all.html", allNodesStr nodes)]) ++
  (if (generateTags nodes).isEmpty then []
   else
     (generateTags nodes).map
        (fun p => ("tag/" ++ p.1 ++ ".html", tagPage nodes p.1)) ++
       [("tags.html", tagIndexStr nodes)]) ++
  [("index.html", topStr nodes)] ++
  (match style with
   | none => []
   | some s => [("style/style.css", s)])

/-- `re.sub(TAG_REGEX, r'[\g<0>](/tag/\g<1>)', md)` (ztk.py line 88): the
same scan as `findTagsAux`, rewriting each match `#run` into
`[#run](/tag/run)`.  The scan resumes after the matched run, whose last
character is a tag character, so the lookbehind fails at the next
position. -/
def tagSubAux : Nat → Bool → List Char → List Char
  | 0, _, s => s
  | _ + 1, _, [] => []
  | fuel + 1, ok, c :: rest =>
    if c = '#' ∧ ok = true then
      let run := rest.takeWhile isTagChar
      if run.isEmpty then c :: tagSubAux fuel false rest
      else
        '[' :: '#' :: run ++ ']' :: '(' :: '/' :: 't' :: 'a' :: 'g' ::
          '/' :: run ++ ')' :: tagSubAux fuel false (rest.dropWhile isTagChar)
    else c :: tagSubAux fuel (pyIsSpace c) rest

def tagSub (s : List Char) : List Char := tagSubAux (s.length + 1) true s

/-- `Rete._navigation_bar` (ztk.py lines 103-112). -/
def navStrs (nodes : List Node) : List String :=
  (if nodes.isEmpty then [] else ["[top](/index)", "[all](/all)"]) ++
  (if (generateTags nodes).isEmpty then [] else ["[tags](/tags)"])

def navBar (nodes : List Node) : String :=
  if (navStrs nodes).isEmpty then ""
  else " ".intercalate (navStrs nodes) ++ "\n\n---\n\n"

/-- The markdown processing of `Rete._export_html` (ztk.py lines 86-93)
for one job: tag linking, navigation bar, then `resolve_links` with the
job's output path as current directory and extension `html`; `none` when
`resolve_links` raises. -/
def pageOut (nodes : List Node) (name body : String) :
    Option (List Char) :=
  resolve_links ((navBar nodes).data ++ tagSub body.data)
    (some name.data) (some ("html" : String).data)

/-- The pages written by the `_export_html` calls, in order: a
`resolve_links` failure aborts the remaining jobs. -/
def runJobs (nodes : List Node) : List (String × String) → List String
  | [] => []
  | (name, body) :: rest =>
    match pageOut nodes name body with
    | some _ => name :: runJobs nodes rest
    | none => []

/-- The files `export_as_website` actually writes (ztk.py lines 22-50):
the html pages in order up to the first `resolve_links` failure, then —
only when no job aborted — the stylesheet.  (The per-page
`resolve_path ('style/style.css', path)` call never raises: its part list
always keeps the two `style` segments, hence is nonempty.) -/
def exportWrites (nodes : List Node) (style : Option String) :
    List String :=
  let written := runJobs nodes (exportJobs nodes none)
  if written.length = (exportJobs nodes none).length then
    written ++
      (match style with | none => [] | some _ => ["style/style.css"])
  else written

/-! ### Specification-side definitions for the path claims -/

/-- Join segments with a separator character. -/
def intercalateC (c : Char) : List (List Char) → List Char
  | [] => []
  | [x] => x
  | x :: xs => x ++ c :: intercalateC c xs

/-- Plain path segment: nonempty, slash-free, and not the `.` component. -/
def plainSeg (x : List Char) : Bool :=
  !x.isEmpty && !x.contains '/' && x ≠ ['.']

/-- The spec's relativization formula on segment sequences: strip the
longest common leading-segment prefix, then `..` once per remaining
directory segment followed by the remaining target segments, joined into
a path. -/
def specRelativize (ts ds : List (List Char)) : List Char :=
  let pr := stripCommon ts ds
  intercalateC '/' (List.replicate pr.2.length ['.', '.'] ++ pr.1)

/-- An absolute target string built from segments. -/
def absTargetStr (ts : List (List Char)) : List Char :=
  '/' :: intercalateC '/' ts

/-- A page path string `dir₁/…/dirₙ/file` built from segments. -/
def pageStr (ds : List (List Char)) (file : List Char) : List Char :=
  intercalateC '/' (ds ++ [file])

/-- The targets group-2 captures that pass 2 of `resolve_links` will feed
to `resolve`, in scan order. -/
def targetsOf (tgtFn : List Char → Option (List Char × List Char)) :
    Nat → List Char → List (List Char)
  | 0, _ => []
  | _ + 1, [] => []
  | fuel + 1, c :: rest =>
    match matchAt tgtFn (c :: rest) with
    | some (_, tgt, after) => tgt :: targetsOf tgtFn fuel after
    | none => targetsOf tgtFn fuel rest

/-- All absolute link targets of a body after pass 1. -/
def linkTargets (md : List Char) : List (List Char) :=
  match subAll rep1 tgt1 (md.length + 1) md with
  | none => []
  | some s1 => targetsOf tgt2 (s1.length + 1) s1

/-- Specification-side key of the frequency listing: the number of notes
carrying the tag, and the maximum note id among them. -/
def specKeyOf (nodes : List Node) (t : String) : Nat × String :=
  ((nodes.filter (fun n => t ∈ n.tags)).length,
   listMax ((nodes.filter (fun n => t ∈ n.tags)).map Node.id))

/-- Well-formedness of a tag index relative to a membership predicate `P`
(`P t i` = the processed notes contain a note with id `i` carrying tag
`t`): keys are unique, entries are nonempty duplicate-free id sets, and
lookup agrees with `P`. -/
def tagsInv (acc : List (String × List String)) (P : String → String → Prop) :
    Prop :=
  (acc.map Prod.fst).Nodup ∧
  (∀ p ∈ acc, p.2 ≠ []) ∧
  (∀ t, (lookupTag acc t).Nodup) ∧
  (∀ t i, i ∈ lookupTag acc t ↔ P t i)

/-! ## Theorems -/

/-! ### General list helpers -/

theorem length_dropWhile_le' {α} (p : α → Bool) :
    ∀ l : List α, (l.dropWhile p).length ≤ l.length
  | [] => Nat.le_refl _
  | a :: l => by
    rw [List.dropWhile_cons]
    split
    · exact Nat.le_succ_of_le (length_dropWhile_le' p l)
    · exact Nat.le_refl _

theorem getLast?_mem' {α} {l : List α} {a : α} (h : l.getLast? = some a) :
    a ∈ l := by
  obtain ⟨hne, he⟩ := List.mem_getLast?_eq_getLast (by rw [h]; rfl)
  rw [he]
  exact List.getLast_mem hne

theorem takeWhile_append_eq {α} {p : α → Bool} :
    ∀ (t post : List α), (∀ c ∈ t, p c = true) →
      (∀ c, post.head? = some c → p c = false) →
      (t ++ post).takeWhile p = t ∧ (t ++ post).dropWhile p = post
  | [], post, _, h2 => by
    cases post with
    | nil => exact ⟨rfl, rfl⟩
    | cons c ps =>
      have hc := h2 c rfl
      simp [List.takeWhile_cons, List.dropWhile_cons, hc]
  | a :: t, post, h1, h2 => by
    have ha := h1 a (List.mem_cons_self a t)
    have ih :=
      takeWhile_append_eq t post (fun c hc => h1 c (List.mem_cons_of_mem a hc)) h2
    simp [List.takeWhile_cons, List.dropWhile_cons, ha, ih.1, ih.2]

theorem takeWhile_sub_pre {α} {p : α → Bool} {c : α} (hc : p c = false) :
    ∀ (pre X : List α), ∃ mid, pre = (pre ++ c :: X).takeWhile p ++ mid
  | [], X => ⟨[], by simp [List.takeWhile_cons, hc]⟩
  | a :: pre, X => by
    cases hpa : p a with
    | false => exact ⟨a :: pre, by simp [List.takeWhile_cons, hpa]⟩
    | true =>
      obtain ⟨mid, hmid⟩ := takeWhile_sub_pre hc pre X
      refine ⟨mid, ?_⟩
      rw [List.cons_append, List.takeWhile_cons, if_pos hpa, List.cons_append]
      rw [← hmid]

/-! ### Lookbehind and maximality condition helpers -/

theorem isTagChar_not_space {c : Char} (h : isTagChar c = true) :
    pyIsSpace c = false := by
  cases hps : pyIsSpace c
  · rfl
  · exfalso
    simp only [pyIsSpace, Bool.or_eq_true, decide_eq_true_eq] at hps
    rcases hps with (((((h1 | h1) | h1) | h1) | h1) | h1) <;> subst h1 <;>
      exact absurd h (by decide)

theorem preCond_nil {ok : Bool} : preCond ok [] ↔ ok = true := Iff.rfl

theorem preCond_single {ok : Bool} {c : Char} :
    preCond ok [c] ↔ pyIsSpace c = true := by
  unfold preCond
  rw [List.getLast?_singleton]

theorem preCond_of_getLast {ok : Bool} {pre : List Char} {c : Char}
    (h : pre.getLast? = some c) : preCond ok pre ↔ pyIsSpace c = true := by
  unfold preCond
  rw [h]

theorem preCond_irrel {ok ok' : Bool} {pre : List Char} (h : pre ≠ []) :
    preCond ok pre ↔ preCond ok' pre := by
  cases hx : pre.getLast? with
  | none => exact absurd (List.getLast?_eq_none_iff.mp hx) h
  | some x => rw [preCond_of_getLast hx, preCond_of_getLast hx]

theorem preCond_cons {ok : Bool} {c : Char} {pre : List Char} (h : pre ≠ []) :
    preCond ok (c :: pre) ↔ preCond ok pre := by
  unfold preCond
  rw [show c :: pre = [c] ++ pre from rfl, List.getLast?_append_of_ne_nil [c] h]

theorem preCond_append {ok : Bool} {l pre : List Char} (h : pre ≠ []) :
    preCond ok (l ++ pre) ↔ preCond ok pre := by
  unfold preCond
  rw [List.getLast?_append_of_ne_nil l h]

theorem preCond_ne_nil {pre : List Char} (h : preCond false pre) : pre ≠ [] := by
  intro hx
  subst hx
  exact Bool.false_ne_true (preCond_nil.mp h)

theorem postCond_nil : postCond [] := trivial

theorem postCond_cons {c : Char} {post : List Char} :
    postCond (c :: post) ↔ isTagChar c = false := Iff.rfl

theorem postCond_head {post : List Char} (h : postCond post) :
    ∀ c, post.head? = some c → isTagChar c = false := by
  intro c hc
  cases post with
  | nil => exact absurd hc (by simp)
  | cons d ds =>
    injection hc with hdc
    subst hdc
    exact postCond_cons.mp h

/-! ### The tag-extraction scanner agrees with the occurrence
characterization -/

theorem specTagAt_cons {c : Char} {ok : Bool} {rest t : List Char}
    (h : ¬ (c = '#' ∧ ok = true)) :
    specTagAt ok (c :: rest) t ↔ specTagAt (pyIsSpace c) rest t := by
  unfold specTagAt
  constructor
  · rintro ⟨ht, hall, pre, post, heq, hpre, hpost⟩
    refine ⟨ht, hall, ?_⟩
    cases pre with
    | nil =>
      rw [List.nil_append] at heq
      injection heq with h1 h2
      exact absurd ⟨h1, preCond_nil.mp hpre⟩ h
    | cons p0 pre' =>
      rw [List.cons_append] at heq
      injection heq with h1 h2
      subst h1
      refine ⟨pre', post, h2, ?_, hpost⟩
      cases pre' with
      | nil => exact preCond_nil.mpr (preCond_single.mp hpre)
      | cons d ds =>
        exact (preCond_irrel (by simp)).mp
          ((preCond_cons (by simp)).mp hpre)
  · rintro ⟨ht, hall, pre, post, heq, hpre, hpost⟩
    refine ⟨ht, hall, c :: pre, post, by rw [List.cons_append, heq], ?_, hpost⟩
    cases pre with
    | nil => exact preCond_single.mpr (preCond_nil.mp hpre)
    | cons d ds =>
      rw [preCond_cons (by simp)]
      exact (preCond_irrel (by simp)).mp hpre

theorem specTagAt_hash_nil {rest t : List Char}
    (hrun : rest.takeWhile isTagChar = []) :
    specTagAt true ('#' :: rest) t ↔ specTagAt false rest t := by
  unfold specTagAt
  constructor
  · rintro ⟨ht, hall, pre, post, heq, hpre, hpost⟩
    refine ⟨ht, hall, ?_⟩
    cases pre with
    | nil =>
      rw [List.nil_append] at heq
      injection heq with h1 h2
      exfalso
      cases t with
      | nil => exact ht rfl
      | cons a t' =>
        have ha := hall a (List.mem_cons_self a t')
        rw [h2, List.cons_append] at hrun
        simp [List.takeWhile_cons, ha] at hrun
    | cons p0 pre' =>
      rw [List.cons_append] at heq
      injection heq with h1 h2
      subst h1
      refine ⟨pre', post, h2, ?_, hpost⟩
      cases pre' with
      | nil => exact absurd (preCond_single.mp hpre) (by decide)
      | cons d ds =>
        exact (preCond_irrel (by simp)).mp
          ((preCond_cons (by simp)).mp hpre)
  · rintro ⟨ht, hall, pre, post, heq, hpre, hpost⟩
    have hne := preCond_ne_nil hpre
    refine ⟨ht, hall, '#' :: pre, post, by rw [List.cons_append, heq], ?_, hpost⟩
    rw [preCond_cons hne]
    exact (preCond_irrel hne).mp hpre

theorem specTagAt_hash_run {rest t : List Char}
    (hrun : rest.takeWhile isTagChar ≠ []) :
    specTagAt true ('#' :: rest) t ↔
      (t = rest.takeWhile isTagChar ∨
        specTagAt false (rest.dropWhile isTagChar) t) := by
  have hsplit := List.takeWhile_append_dropWhile (p := isTagChar) (l := rest)
  constructor
  · rintro ⟨ht, hall, pre, post, heq, hpre, hpost⟩
    cases pre with
    | nil =>
      rw [List.nil_append] at heq
      injection heq with h1 h2
      left
      have := (takeWhile_append_eq t post hall (postCond_head hpost)).1
      rw [h2, this]
    | cons p0 pre' =>
      rw [List.cons_append] at heq
      injection heq with h1 h2
      subst h1
      obtain ⟨mid, hmid⟩ :=
        takeWhile_sub_pre ((by decide : isTagChar '#' = false)) pre' (t ++ post)
      rw [← h2] at hmid
      cases mid with
      | nil =>
        exfalso
        rw [List.append_nil] at hmid
        subst hmid
        cases hx : (rest.takeWhile isTagChar).getLast? with
        | none => exact hrun (List.getLast?_eq_none_iff.mp hx)
        | some x =>
          have hxm : x ∈ rest.takeWhile isTagChar := getLast?_mem' hx
          have hxt : isTagChar x = true := List.mem_takeWhile_imp hxm
          have : pyIsSpace x = true := by
            have hlast : ('#' :: rest.takeWhile isTagChar).getLast? = some x := by
              rw [show '#' :: rest.takeWhile isTagChar =
                    ['#'] ++ rest.takeWhile isTagChar from rfl,
                List.getLast?_append_of_ne_nil ['#'] hrun, hx]
            exact (preCond_of_getLast hlast).mp hpre
          rw [isTagChar_not_space hxt] at this
          exact Bool.false_ne_true this
      | cons m0 mid' =>
        right
        have hrest2 : rest.dropWhile isTagChar =
            (m0 :: mid') ++ '#' :: (t ++ post) := by
          have hcat : rest.takeWhile isTagChar ++ rest.dropWhile isTagChar =
              rest.takeWhile isTagChar ++
                ((m0 :: mid') ++ '#' :: (t ++ post)) :=
            calc rest.takeWhile isTagChar ++ rest.dropWhile isTagChar
                = rest := hsplit
              _ = pre' ++ '#' :: (t ++ post) := h2
              _ = (rest.takeWhile isTagChar ++ m0 :: mid') ++
                    '#' :: (t ++ post) := by rw [hmid]
              _ = rest.takeWhile isTagChar ++
                    ((m0 :: mid') ++ '#' :: (t ++ post)) := by
                  rw [List.append_assoc]
          exact List.append_cancel_left hcat
        refine ⟨ht, hall, m0 :: mid', post, hrest2, ?_, hpost⟩
        have hp : preCond true ('#' :: pre') ↔ preCond true (m0 :: mid') := by
          rw [hmid, show '#' :: (rest.takeWhile isTagChar ++ m0 :: mid') =
                ('#' :: rest.takeWhile isTagChar) ++ m0 :: mid' from by
              rw [List.cons_append],
            preCond_append (by simp)]
        exact (preCond_irrel (by simp)).mp (hp.mp hpre)
  · rintro (rfl | ⟨ht, hall, pre, post, heq, hpre, hpost⟩)
    · refine ⟨hrun, fun c hc => List.mem_takeWhile_imp hc,
        [], rest.dropWhile isTagChar, ?_, preCond_nil.mpr rfl, ?_⟩
      · rw [List.nil_append, hsplit]
      · have := List.head?_dropWhile_not isTagChar rest
        cases hh : (rest.dropWhile isTagChar).head? with
        | none =>
          cases hd : rest.dropWhile isTagChar with
          | nil => exact postCond_nil
          | cons d ds => rw [hd] at hh; exact absurd hh (by simp)
        | some d =>
          cases hd : rest.dropWhile isTagChar with
          | nil => rw [hd] at hh; exact absurd hh (by simp)
          | cons d' ds =>
            rw [hd] at hh
            injection hh with hdd
            subst hdd
            rw [hd] at this
            exact postCond_cons.mpr this
    · have hne := preCond_ne_nil hpre
      refine ⟨ht, hall, '#' :: rest.takeWhile isTagChar ++ pre, post, ?_, ?_, hpost⟩
      · rw [List.append_assoc, ← heq, List.cons_append, hsplit]
      · rw [show '#' :: rest.takeWhile isTagChar ++ pre =
              ('#' :: rest.takeWhile isTagChar) ++ pre from by
            rw [List.cons_append],
          preCond_append hne]
        exact (preCond_irrel hne).mp hpre

theorem findTagsAux_iff :
    ∀ (fuel : Nat) (ok : Bool) (s t : List Char), s.length < fuel →
      (t ∈ findTagsAux fuel ok s ↔ specTagAt ok s t)
  | 0, _, _, _, h => absurd h (Nat.not_lt_zero _)
  | fuel + 1, ok, [], t, _ => by
    simp only [findTagsAux, List.not_mem_nil, false_iff]
    rintro ⟨ht, hall, pre, post, heq, hpre, hpost⟩
    exact absurd heq.symm (by simp)
  | fuel + 1, ok, c :: rest, t, h => by
    have hrest : rest.length < fuel := Nat.lt_of_succ_lt_succ h
    by_cases hc : c = '#' ∧ ok = true
    · obtain ⟨hc1, hc2⟩ := hc
      subst hc1; subst hc2
      by_cases hrun : rest.takeWhile isTagChar = []
      · rw [show findTagsAux (fuel + 1) true ('#' :: rest) =
              findTagsAux fuel false rest from by
            simp [findTagsAux, List.isEmpty_iff, hrun]]
        rw [findTagsAux_iff fuel false rest t hrest]
        exact (specTagAt_hash_nil hrun).symm
      · rw [show findTagsAux (fuel + 1) true ('#' :: rest) =
              rest.takeWhile isTagChar ::
                findTagsAux fuel false (rest.dropWhile isTagChar) from by
            simp [findTagsAux, List.isEmpty_iff, hrun]]
        rw [List.mem_cons,
          findTagsAux_iff fuel false (rest.dropWhile isTagChar) t
            (Nat.lt_of_le_of_lt (length_dropWhile_le' _ _) hrest)]
        exact (specTagAt_hash_run hrun).symm
    · rw [show findTagsAux (fuel + 1) ok (c :: rest) =
            findTagsAux fuel (pyIsSpace c) rest from by
          rw [findTagsAux, if_neg (by exact_mod_cast hc)]]
      rw [findTagsAux_iff fuel (pyIsSpace c) rest t hrest]
      exact (specTagAt_cons hc).symm

/-! ### Title inference: the scanner versus the first-heading-line reading -/

theorem afterNL_cons {c : Char} {r : List Char} (h : c ≠ '\n') :
    afterNL (c :: r) = afterNL r := by
  simp [afterNL, h]

theorem afterNL_append {L rest : List Char} (hL : ∀ c ∈ L, c ≠ '\n') :
    afterNL (L ++ '\n' :: rest) = some rest := by
  induction L with
  | nil => simp [afterNL]
  | cons a L ih =>
    rw [List.cons_append, afterNL_cons (hL a (List.mem_cons_self a L))]
    exact ih (fun c hc => hL c (List.mem_cons_of_mem a hc))

theorem afterNL_none {L : List Char} (hL : ∀ c ∈ L, c ≠ '\n') :
    afterNL L = none := by
  induction L with
  | nil => rfl
  | cons a L ih =>
    rw [afterNL_cons (hL a (List.mem_cons_self a L))]
    exact ih (fun c hc => hL c (List.mem_cons_of_mem a hc))

theorem splitOnC_no_sep {sep : Char} :
    ∀ {L : List Char}, (∀ c ∈ L, c ≠ sep) → splitOnC sep L = [L]
  | [], _ => rfl
  | a :: L, hL => by
    have ha := hL a (List.mem_cons_self a L)
    have ih := splitOnC_no_sep (fun c hc => hL c (List.mem_cons_of_mem a hc))
    simp [splitOnC, ha, ih]

theorem splitOnC_append {sep : Char} :
    ∀ {L : List Char} (rest : List Char), (∀ c ∈ L, c ≠ sep) →
      splitOnC sep (L ++ sep :: rest) = L :: splitOnC sep rest
  | [], rest, _ => by simp [splitOnC]
  | a :: L, rest, hL => by
    have ha := hL a (List.mem_cons_self a L)
    have ih := splitOnC_append rest (fun c hc => hL c (List.mem_cons_of_mem a hc))
    simp [splitOnC, ha, ih]

theorem line_split (s : List Char) :
    (∀ c ∈ s, c ≠ '\n') ∨
      ∃ L rest, s = L ++ '\n' :: rest ∧ ∀ c ∈ L, c ≠ '\n' := by
  induction s with
  | nil => exact Or.inl (by simp)
  | cons a s ih =>
    by_cases ha : a = '\n'
    · subst ha
      exact Or.inr ⟨[], s, rfl, by simp⟩
    · rcases ih with h | ⟨L, rest, heq, hL⟩
      · refine Or.inl ?_
        intro c hc
        rcases List.mem_cons.mp hc with rfl | hc
        · exact ha
        · exact h c hc
      · refine Or.inr ⟨a :: L, rest, by rw [heq, List.cons_append], ?_⟩
        intro c hc
        rcases List.mem_cons.mp hc with rfl | hc
        · exact ha
        · exact hL c hc

theorem dropWhile_append_of_ne {α} {p : α → Bool} {L : List α}
    (h : L.dropWhile p ≠ []) (X : List α) :
    (L ++ X).dropWhile p = L.dropWhile p ++ X := by
  rw [List.dropWhile_append, if_neg]
  simp [List.isEmpty_iff, h]

theorem takeWhile_append_of_ne {α} {p : α → Bool} {L : List α}
    (h : L.dropWhile p ≠ []) (X : List α) :
    (L ++ X).takeWhile p = L.takeWhile p := by
  rw [List.takeWhile_append, if_neg]
  intro hlen
  have hsum : (L.takeWhile p).length + (L.dropWhile p).length = L.length := by
    rw [← List.length_append, List.takeWhile_append_dropWhile]
  have h0 : (L.dropWhile p).length = 0 := by omega
  exact h (List.length_eq_zero.mp h0)

theorem dropWhile_all_append {α} {p : α → Bool} {L : List α}
    (h : ∀ c ∈ L, p c = true) (X : List α) :
    (L ++ X).dropWhile p = X.dropWhile p := by
  rw [List.dropWhile_append, if_pos]
  simp only [List.isEmpty_iff, List.dropWhile_eq_nil_iff]
  exact h

theorem mem_of_dropWhile {α} {p : α → Bool} {l : List α} {a : α}
    (h : a ∈ l.dropWhile p) : a ∈ l :=
  List.Sublist.mem h (List.dropWhile_sublist p)

theorem tryAt_eq_of_drop {s : List Char} {c : Char} {u : List Char}
    (h : s.dropWhile pyIsSpace = c :: u) :
    tryAt s =
      (if c = '#' then
        if (u.takeWhile pyIsSpace).isEmpty then none
        else if (u.dropWhile pyIsSpace).isEmpty then
          if 2 ≤ (u.takeWhile pyIsSpace).length ∧
              (u.takeWhile pyIsSpace).getLast? ≠ some '\n' then
            ((u.takeWhile pyIsSpace).getLast?).map (fun x => [x])
          else none
        else some ((u.dropWhile pyIsSpace).takeWhile (fun x => x ≠ '\n'))
      else none) := by
  unfold tryAt
  rw [h]

theorem lineHeading?_eq_of_drop {L : List Char} {c : Char} {u : List Char}
    (h : L.dropWhile pyIsSpace = c :: u) :
    lineHeading? L =
      (if c = '#' then
        if (u.takeWhile pyIsSpace).isEmpty ∨ (u.dropWhile pyIsSpace).isEmpty
        then none
        else some (u.dropWhile pyIsSpace)
      else none) := by
  unfold lineHeading?
  rw [h]

theorem lineHeading?_of_drop_nil {L : List Char}
    (h : L.dropWhile pyIsSpace = []) : lineHeading? L = none := by
  unfold lineHeading?
  rw [h]

theorem tryAt_of_drop_nil {s : List Char}
    (h : s.dropWhile pyIsSpace = []) : tryAt s = none := by
  unfold tryAt
  rw [h]

theorem tryAt_of_all_space {L : List Char}
    (h : ∀ c ∈ L, pyIsSpace c = true) (X : List Char) :
    tryAt (L ++ X) = tryAt X := by
  unfold tryAt
  rw [dropWhile_all_append h X]

theorem bareMarker_eq_of_drop {L : List Char} {c : Char} {u : List Char}
    (h : L.dropWhile pyIsSpace = c :: u) :
    bareMarker L = (c = '#' && u.all pyIsSpace) := by
  unfold bareMarker
  rw [h]

theorem takeWhile_ne_nl {v : List Char} (hv : ∀ x ∈ v, x ≠ '\n')
    (X : List Char) :
    (v ++ '\n' :: X).takeWhile (fun x => x ≠ '\n') = v := by
  have h1 : ∀ x ∈ v, (fun x => (x ≠ '\n' : Bool)) x = true :=
    fun x hx => decide_eq_true (hv x hx)
  have h2 : ∀ x, ('\n' :: X).head? = some x →
      (fun x => (x ≠ '\n' : Bool)) x = false := by
    intro x hx
    injection hx with hx'
    subst hx'
    simp
  exact (takeWhile_append_eq v ('\n' :: X) h1 h2).1

theorem takeWhile_ne_nl_self {v : List Char} (hv : ∀ x ∈ v, x ≠ '\n') :
    v.takeWhile (fun x => x ≠ '\n') = v := by
  have h1 : ∀ x ∈ v, (fun x => (x ≠ '\n' : Bool)) x = true :=
    fun x hx => decide_eq_true (hv x hx)
  have := (takeWhile_append_eq v [] h1 (by simp)).1
  rwa [List.append_nil] at this

theorem tryAt_last {L : List Char} (hL : ∀ c ∈ L, c ≠ '\n')
    (hbare : bareMarker L = false) :
    tryAt L = lineHeading? L := by
  cases hd : L.dropWhile pyIsSpace with
  | nil => rw [tryAt_of_drop_nil hd, lineHeading?_of_drop_nil hd]
  | cons c u =>
    rw [tryAt_eq_of_drop hd, lineHeading?_eq_of_drop hd]
    by_cases hc : c = '#'
    · rw [if_pos hc, if_pos hc]
      by_cases hw : (u.takeWhile pyIsSpace).isEmpty
      · rw [if_pos hw, if_pos (Or.inl hw)]
      · rw [if_neg hw]
        by_cases hv : (u.dropWhile pyIsSpace).isEmpty
        · exfalso
          have hall : u.all pyIsSpace = true := by
            rw [List.all_eq_true]
            exact List.dropWhile_eq_nil_iff.mp (List.isEmpty_iff.mp hv)
          rw [bareMarker_eq_of_drop hd, hc, hall] at hbare
          exact absurd hbare (by decide)
        · rw [if_neg hv, if_neg (by simp [hw, hv])]
          have hu : ∀ x ∈ u.dropWhile pyIsSpace, x ≠ '\n' := by
            intro x hx
            refine hL x (mem_of_dropWhile (p := pyIsSpace) ?_)
            rw [hd]
            exact List.mem_cons_of_mem c (mem_of_dropWhile hx)
          rw [takeWhile_ne_nl_self hu]
    · rw [if_neg hc, if_neg hc]

theorem tryAt_line {L rest : List Char} (hL : ∀ c ∈ L, c ≠ '\n')
    (hbare : bareMarker L = false) (hne : L.dropWhile pyIsSpace ≠ []) :
    tryAt (L ++ '\n' :: rest) = lineHeading? L := by
  cases hd : L.dropWhile pyIsSpace with
  | nil => exact absurd hd hne
  | cons c u =>
    have hdropX : (L ++ '\n' :: rest).dropWhile pyIsSpace =
        c :: (u ++ '\n' :: rest) := by
      rw [dropWhile_append_of_ne (by rw [hd]; simp) ('\n' :: rest), hd,
        List.cons_append]
    rw [tryAt_eq_of_drop hdropX, lineHeading?_eq_of_drop hd]
    by_cases hc : c = '#'
    · rw [if_pos hc, if_pos hc]
      have humem : ∀ x ∈ u, x ≠ '\n' := by
        intro x hx
        refine hL x (mem_of_dropWhile (p := pyIsSpace) ?_)
        rw [hd]
        exact List.mem_cons_of_mem c hx
      have hvne : u.dropWhile pyIsSpace ≠ [] := by
        rw [Ne, List.dropWhile_eq_nil_iff]
        intro hall
        have : u.all pyIsSpace = true := List.all_eq_true.mpr hall
        rw [bareMarker_eq_of_drop hd, hc, this] at hbare
        exact absurd hbare (by decide)
      have hwX : (u ++ '\n' :: rest).takeWhile pyIsSpace =
          u.takeWhile pyIsSpace := takeWhile_append_of_ne hvne _
      have hvX : (u ++ '\n' :: rest).dropWhile pyIsSpace =
          u.dropWhile pyIsSpace ++ '\n' :: rest := dropWhile_append_of_ne hvne _
      rw [hwX, hvX]
      by_cases hw : (u.takeWhile pyIsSpace).isEmpty
      · rw [if_pos hw, if_pos (Or.inl hw)]
      · have hv : ∀ x ∈ u.dropWhile pyIsSpace, x ≠ '\n' :=
          fun x hx => humem x (mem_of_dropWhile hx)
        rw [if_neg hw,
          if_neg (show ¬((u.dropWhile pyIsSpace ++ '\n' :: rest).isEmpty = true)
            by simp [List.isEmpty_iff]),
          if_neg (show ¬((u.takeWhile pyIsSpace).isEmpty = true ∨
              (u.dropWhile pyIsSpace).isEmpty = true) by
            simp only [not_or]
            exact ⟨hw, by simp [List.isEmpty_iff, hvne]⟩),
          takeWhile_ne_nl hv rest]
    · rw [if_neg hc, if_neg hc]

theorem headingGo_eq_spec :
    ∀ (fuel : Nat) (s : List Char), s.length < fuel →
      (∀ L ∈ linesOf s, bareMarker L = false) →
      headingGo fuel s = (linesOf s).findSome? lineHeading?
  | 0, s, h, _ => absurd h (Nat.not_lt_zero _)
  | fuel + 1, s, h, hb => by
    rcases line_split s with hnl | ⟨L, rest, rfl, hL⟩
    · have hlines : linesOf s = [s] := splitOnC_no_sep hnl
      have hbs : bareMarker s = false := hb s (by rw [hlines]; simp)
      rw [hlines]
      rw [show headingGo (fuel + 1) s =
          (match tryAt s with
           | some g => some g
           | none =>
             match afterNL s with
             | some r => headingGo fuel r
             | none => none) from rfl]
      rw [tryAt_last hnl hbs, afterNL_none hnl]
      cases hg : lineHeading? s with
      | some g => simp [List.findSome?_cons, hg]
      | none => simp [List.findSome?_cons, hg]
    · have hlines : linesOf (L ++ '\n' :: rest) = L :: linesOf rest :=
        splitOnC_append rest hL
      have hbL : bareMarker L = false :=
        hb L (by rw [hlines]; exact List.mem_cons_self _ _)
      have hbrest : ∀ M ∈ linesOf rest, bareMarker M = false := fun M hM =>
        hb M (by rw [hlines]; exact List.mem_cons_of_mem _ hM)
      have hrestlen : rest.length < fuel := by
        rw [List.length_append, List.length_cons] at h
        omega
      have ih := headingGo_eq_spec fuel rest hrestlen hbrest
      rw [hlines]
      rw [show headingGo (fuel + 1) (L ++ '\n' :: rest) =
          (match tryAt (L ++ '\n' :: rest) with
           | some g => some g
           | none =>
             match afterNL (L ++ '\n' :: rest) with
             | some r => headingGo fuel r
             | none => none) from rfl]
      rw [afterNL_append hL]
      by_cases hdnil : L.dropWhile pyIsSpace = []
      · have hLh : lineHeading? L = none := lineHeading?_of_drop_nil hdnil
        have hall : ∀ c ∈ L, pyIsSpace c = true :=
          List.dropWhile_eq_nil_iff.mp hdnil
        have htry : tryAt (L ++ '\n' :: rest) = tryAt rest := by
          rw [show L ++ '\n' :: rest = (L ++ ['\n']) ++ rest from by
              rw [List.append_assoc]; rfl]
          refine tryAt_of_all_space ?_ rest
          intro c hc
          rcases List.mem_append.mp hc with hc | hc
          · exact hall c hc
          · simp only [List.mem_singleton] at hc
            subst hc
            rfl
        rw [htry, List.findSome?_cons, hLh, ← ih]
        cases ht : tryAt rest with
        | none => rfl
        | some g =>
          cases fuel with
          | zero => exact absurd hrestlen (Nat.not_lt_zero _)
          | succ fuel' =>
            rw [show headingGo (fuel' + 1) rest =
                (match tryAt rest with
                 | some g => some g
                 | none =>
                   match afterNL rest with
                   | some r => headingGo fuel' r
                   | none => none) from rfl]
            rw [ht]
      · have htry := @tryAt_line L rest hL hbL hdnil
        rw [htry, List.findSome?_cons, ← ih]
        cases hg : lineHeading? L with
        | some g => rfl
        | none => rfl

/-- C8 counterexample: on content `"#\nA"` the regex's `\s+` matches the
line break, so the inferred title is `"A"`, while the claim's
first-heading-line reading yields the id fallback `"note"`. -/
theorem C8_counterexample :
    inferTitle "#\nA" "note" = "A" ∧ specTitle "#\nA" "note" = "note" ∧
      ("A" : String) ≠ "note" :=
  ⟨by decide, by decide, by decide⟩

/-- C8 (amended): for every note content in which no line is a bare
heading marker (only whitespace, `#`, and trailing whitespace), the derived
title is the text of the first line of the form
`whitespace* '#' whitespace+ text`, and the id when no such line exists. -/
theorem C8_title_amended (id content : String)
    (h : ∀ L ∈ linesOf content.data, bareMarker L = false) :
    (mkNode id content).title = specTitle content id := by
  show inferTitle content id = specTitle content id
  unfold inferTitle specTitle
  rw [headingGo_eq_spec (content.length + 1) content.data
    (Nat.lt_succ_self _) h]

/-- C8 witness: the amended theorem applied to `"# Hello\nbody"`. -/
theorem C8_title_amended_witness :
    (∀ L ∈ linesOf ("# Hello\nbody" : String).data, bareMarker L = false) ∧
      (mkNode "n" "# Hello\nbody").title = specTitle "# Hello\nbody" "n" :=
  ⟨by decide, C8_title_amended "n" "# Hello\nbody" (by decide)⟩

/-- C2: for every note content string, the derived tag set is exactly the
set of tokens matching `#[a-zA-Z0-9-]+` whose `#` is not immediately
preceded by a non-whitespace character (at string start or after
whitespace it is a tag; after a non-space character it is not). -/
theorem C2_tag_set_exact (i content tag : String) :
    tag ∈ (mkNode i content).tags ↔ specTag content.data tag.data := by
  unfold mkNode specTag
  rw [show (Node.mk i content (inferTitle content i)
        (((findTags content.data).map String.mk).dedup)).tags =
      ((findTags content.data).map String.mk).dedup from rfl]
  rw [List.mem_dedup, List.mem_map]
  constructor
  · rintro ⟨a, ha, rfl⟩
    rw [show (String.mk a).data = a from rfl]
    exact (findTagsAux_iff _ true content.data a (Nat.lt_succ_self _)).mp ha
  · intro hs
    refine ⟨tag.data, ?_, rfl⟩
    exact (findTagsAux_iff _ true content.data tag.data (Nat.lt_succ_self _)).mpr hs

/-! ### String comparison: `charsLtb` is the default string ordering -/

theorem charsLtb_iff_lt : ∀ (a b : List Char), charsLtb a b = true ↔ a < b
  | [], [] => by
    constructor
    · intro h
      exact absurd h (by simp [charsLtb])
    · intro h
      exact absurd h (fun h => nomatch h)
  | [], b :: bs => ⟨fun _ => List.nil_lt_cons b bs, fun _ => rfl⟩
  | a :: as, [] => by
    constructor
    · intro h
      exact absurd h (by simp [charsLtb])
    · intro h
      exact absurd h (fun h => nomatch h)
  | a :: as, b :: bs => by
    constructor
    · intro h
      by_cases hab : a < b
      · exact List.Lex.rel hab
      · by_cases hba : b < a
        · rw [show charsLtb (a :: as) (b :: bs) =
              (if a < b then true else if b < a then false else charsLtb as bs)
              from rfl, if_neg hab, if_pos hba] at h
          exact absurd h (by simp)
        · rw [show charsLtb (a :: as) (b :: bs) =
              (if a < b then true else if b < a then false else charsLtb as bs)
              from rfl, if_neg hab, if_neg hba] at h
          have hab' : a = b := le_antisymm (not_lt.mp hba) (not_lt.mp hab)
          subst hab'
          exact List.Lex.cons ((charsLtb_iff_lt as bs).mp h)
    · intro h
      cases h with
      | rel hab =>
        rw [show charsLtb (a :: as) (b :: bs) =
            (if a < b then true else if b < a then false else charsLtb as bs)
            from rfl, if_pos hab]
      | cons h' =>
        rw [show charsLtb (a :: as) (a :: bs) =
            (if a < a then true else if a < a then false else charsLtb as bs)
            from rfl, if_neg (lt_irrefl a), if_neg (lt_irrefl a)]
        exact (charsLtb_iff_lt as bs).mpr h'

theorem strLtb_iff {a b : String} : strLtb a b = true ↔ a < b := by
  rw [String.lt_iff_toList_lt]
  exact charsLtb_iff_lt a.data b.data

theorem strLtb_false_iff {a b : String} : strLtb a b = false ↔ ¬ a < b := by
  rw [← strLtb_iff]
  cases strLtb a b <;> simp

/-! ### Top-node inference (C3) -/

theorem minFold_mem :
    ∀ (ns : List Node) (n : Node),
      ns.foldl (fun acc m => if strLtb m.id acc.id then m else acc) n ∈ n :: ns
  | [], n => List.mem_cons_self n []
  | m :: ns, n => by
    rw [List.foldl_cons]
    have ih := minFold_mem ns (if strLtb m.id n.id then m else n)
    rcases List.mem_cons.mp ih with h | h
    · rw [h]
      split
      · exact List.mem_cons_of_mem n (List.mem_cons_self m ns)
      · exact List.mem_cons_self n (m :: ns)
    · exact List.mem_cons_of_mem n (List.mem_cons_of_mem m h)

theorem minFold_min :
    ∀ (ns : List Node) (n m : Node), m ∈ n :: ns →
      ¬ m.id <
        (ns.foldl (fun acc m => if strLtb m.id acc.id then m else acc) n).id
  | [], n, m, hm => by
    rcases List.mem_cons.mp hm with rfl | h
    · exact lt_irrefl _
    · exact absurd h (by simp)
  | k :: ns, n, m, hm => by
    rw [List.foldl_cons]
    by_cases hkn : strLtb k.id n.id = true
    · rw [if_pos hkn]
      have hlt : k.id < n.id := strLtb_iff.mp hkn
      have ihk := minFold_min ns k k (List.mem_cons_self k ns)
      rcases List.mem_cons.mp hm with rfl | hm'
      · intro hn
        exact ihk (lt_trans hlt hn)
      · rcases List.mem_cons.mp hm' with rfl | hm''
        · exact ihk
        · exact minFold_min ns k m (List.mem_cons_of_mem k hm'')
    · rw [if_neg hkn]
      have hkn' : ¬ k.id < n.id := by
        rw [← strLtb_iff]
        exact hkn
      have ihn := minFold_min ns n n (List.mem_cons_self n ns)
      rcases List.mem_cons.mp hm with rfl | hm'
      · exact ihn
      · rcases List.mem_cons.mp hm' with rfl | hm''
        · intro hk
          exact hkn' (lt_of_lt_of_le hk (not_lt.mp ihn))
        · exact minFold_min ns n m (List.mem_cons_of_mem n hm'')

theorem id_inj :
    ∀ {l : List Node}, (l.map Node.id).Nodup →
      ∀ {a b : Node}, a ∈ l → b ∈ l → a.id = b.id → a = b
  | [], _, a, b, ha, _, _ => absurd ha (by simp)
  | n :: l, h, a, b, ha, hb, hid => by
    rw [List.map_cons, List.nodup_cons] at h
    rcases List.mem_cons.mp ha with rfl | ha' <;>
      rcases List.mem_cons.mp hb with rfl | hb'
    · rfl
    · exact absurd (hid ▸ List.mem_map_of_mem Node.id hb') h.1
    · exact absurd (hid ▸ List.mem_map_of_mem Node.id ha') h.1
    · exact id_inj h.2 ha' hb' hid

theorem inferTopNode_none_iff {l : List Node} :
    inferTopNode l = none ↔ ∀ n ∈ l, "top" ∉ n.tags := by
  unfold inferTopNode
  cases hf : l.filter (fun n => "top" ∈ n.tags) with
  | nil =>
    constructor
    · intro _ n hn htag
      have hmem : n ∈ l.filter (fun n => "top" ∈ n.tags) :=
        List.mem_filter.mpr ⟨hn, by simp [htag]⟩
      rw [hf] at hmem
      exact absurd hmem (by simp)
    · intro _
      rfl
  | cons k ks =>
    constructor
    · intro h
      exact absurd h (by simp)
    · intro h
      exfalso
      have hk : k ∈ l.filter (fun n => "top" ∈ n.tags) := by
        rw [hf]
        exact List.mem_cons_self _ _
      have hk' := List.mem_filter.mp hk
      exact h _ hk'.1 (by simpa using hk'.2)

theorem inferTopNode_some {l : List Node} {n : Node}
    (h : inferTopNode l = some n) :
    n ∈ l ∧ "top" ∈ n.tags ∧ ∀ m ∈ l, "top" ∈ m.tags → ¬ m.id < n.id := by
  unfold inferTopNode at h
  cases hf : l.filter (fun n => "top" ∈ n.tags) with
  | nil =>
    rw [hf] at h
    exact absurd h (by simp)
  | cons k ks =>
    rw [hf] at h
    injection h with h'
    have hmem : n ∈ k :: ks := h' ▸ minFold_mem ks k
    rw [← hf] at hmem
    have hmem' := List.mem_filter.mp hmem
    refine ⟨hmem'.1, by simpa using hmem'.2, ?_⟩
    intro m hm htag
    have hmf : m ∈ k :: ks := by
      rw [← hf]
      exact List.mem_filter.mpr ⟨hm, by simp [htag]⟩
    rw [← h']
    exact minFold_min ks k m hmf

/-- C3: if no included note carries the tag `top` then the top node is
`None`; otherwise it is the note with the lexicographically smallest id
among the notes tagged `top`, independently of the order in which the notes
were supplied at construction. -/
theorem C3_top_node (l₁ l₂ : List Node) (hperm : l₁.Perm l₂)
    (hnodup : (l₁.map Node.id).Nodup) :
    inferTopNode l₁ = inferTopNode l₂ ∧
    (inferTopNode l₁ = none ↔ ∀ n ∈ l₁, "top" ∉ n.tags) ∧
    (∀ n, inferTopNode l₁ = some n →
      n ∈ l₁ ∧ "top" ∈ n.tags ∧ ∀ m ∈ l₁, "top" ∈ m.tags → ¬ m.id < n.id) := by
  refine ⟨?_, inferTopNode_none_iff, fun n h => inferTopNode_some h⟩
  cases h₁ : inferTopNode l₁ with
  | none =>
    cases h₂ : inferTopNode l₂ with
    | none => rfl
    | some n₂ =>
      have hn := inferTopNode_some h₂
      have hno := inferTopNode_none_iff.mp h₁ n₂ (hperm.mem_iff.mpr hn.1)
      exact absurd hn.2.1 hno
  | some n₁ =>
    cases h₂ : inferTopNode l₂ with
    | none =>
      have hn := inferTopNode_some h₁
      have hno := inferTopNode_none_iff.mp h₂ n₁ (hperm.mem_iff.mp hn.1)
      exact absurd hn.2.1 hno
    | some n₂ =>
      have c₁ := inferTopNode_some h₁
      have c₂ := inferTopNode_some h₂
      have hn₂l₁ : n₂ ∈ l₁ := hperm.mem_iff.mpr c₂.1
      have hn₁l₂ : n₁ ∈ l₂ := hperm.mem_iff.mp c₁.1
      have h12 : ¬ n₂.id < n₁.id := c₁.2.2 n₂ hn₂l₁ c₂.2.1
      have h21 : ¬ n₁.id < n₂.id := c₂.2.2 n₁ hn₁l₂ c₁.2.1
      have hid : n₁.id = n₂.id :=
        le_antisymm (not_lt.mp h12) (not_lt.mp h21)
      rw [id_inj hnodup c₁.1 hn₂l₁ hid]

/-! ### Tag-index construction (C10) -/

theorem lookupTag_addTag_self :
    ∀ (acc : List (String × List String)) (name t : String),
      lookupTag (addTag acc name t) t =
        (if name ∈ lookupTag acc t then lookupTag acc t
         else lookupTag acc t ++ [name])
  | [], name, t => by simp [addTag, lookupTag]
  | p :: ps, name, t => by
    by_cases hp : p.1 = t
    · simp [addTag, lookupTag, hp]
    · simp [addTag, lookupTag, hp, lookupTag_addTag_self ps name t]

theorem lookupTag_addTag_ne :
    ∀ (acc : List (String × List String)) (name t t' : String), t' ≠ t →
      lookupTag (addTag acc name t) t' = lookupTag acc t'
  | [], name, t, t', h => by simp [addTag, lookupTag, Ne.symm h]
  | p :: ps, name, t, t', h => by
    by_cases hp : p.1 = t
    · simp [addTag, lookupTag, hp, Ne.symm h]
    · simp [addTag, lookupTag, hp, lookupTag_addTag_ne ps name t t' h]

theorem addTag_keys :
    ∀ (acc : List (String × List String)) (name t : String),
      (addTag acc name t).map Prod.fst =
        (if t ∈ acc.map Prod.fst then acc.map Prod.fst
         else acc.map Prod.fst ++ [t])
  | [], name, t => by simp [addTag]
  | p :: ps, name, t => by
    by_cases hp : p.1 = t
    · simp [addTag, hp]
    · have hp' : ¬ t = p.1 := fun hh => hp hh.symm
      by_cases ht : t ∈ ps.map Prod.fst <;>
        simp [addTag, hp, hp', ht, addTag_keys ps name t]

theorem addTag_snd :
    ∀ (acc : List (String × List String)) (name t : String),
      (∀ p ∈ acc, p.2 ≠ []) → ∀ p ∈ addTag acc name t, p.2 ≠ []
  | [], name, t, _, p, hp => by
    simp only [addTag, List.mem_singleton] at hp
    rw [hp]
    simp
  | q :: ps, name, t, h, p, hp => by
    by_cases hq : q.1 = t
    · rw [show addTag (q :: ps) name t =
          (q.1, if name ∈ q.2 then q.2 else q.2 ++ [name]) :: ps from by
        simp [addTag, hq]] at hp
      rcases List.mem_cons.mp hp with rfl | hp'
      · show (if name ∈ q.2 then q.2 else q.2 ++ [name]) ≠ []
        split
        · exact h q (List.mem_cons_self q ps)
        · simp
      · exact h p (List.mem_cons_of_mem q hp')
    · rw [show addTag (q :: ps) name t = q :: addTag ps name t from by
        simp [addTag, hq]] at hp
      rcases List.mem_cons.mp hp with rfl | hp'
      · exact h p (List.mem_cons_self p ps)
      · exact addTag_snd ps name t
          (fun r hr => h r (List.mem_cons_of_mem q hr)) p hp'

theorem lookupTag_eq_nil :
    ∀ (acc : List (String × List String)) (t : String),
      t ∉ acc.map Prod.fst → lookupTag acc t = []
  | [], t, _ => rfl
  | p :: ps, t, h => by
    have h1 : ¬ p.1 = t := by
      intro hh
      exact h (by simp [← hh])
    simp [lookupTag, h1,
      lookupTag_eq_nil ps t (fun hm => h (List.mem_cons_of_mem _ hm))]

theorem key_mem_of_lookup_ne {acc : List (String × List String)}
    {t : String} (h : lookupTag acc t ≠ []) : t ∈ acc.map Prod.fst := by
  by_contra hc
  exact h (lookupTag_eq_nil acc t hc)

theorem mem_eq_lookup :
    ∀ {acc : List (String × List String)}, (acc.map Prod.fst).Nodup →
      ∀ {t : String} {v : List String}, (t, v) ∈ acc → lookupTag acc t = v
  | [], _, t, v, h => absurd h (by simp)
  | p :: ps, h, t, v, hm => by
    rw [List.map_cons, List.nodup_cons] at h
    rcases List.mem_cons.mp hm with heq | hm'
    · rw [← heq]
      simp [lookupTag]
    · have ht : ¬ p.1 = t := by
        intro hh
        apply h.1
        rw [hh]
        exact List.mem_map_of_mem Prod.fst hm'
      simp [lookupTag, ht, mem_eq_lookup h.2 hm']

theorem tagsInv_congr {acc : List (String × List String)}
    {P Q : String → String → Prop} (h : tagsInv acc P)
    (hpq : ∀ t i, P t i ↔ Q t i) : tagsInv acc Q :=
  ⟨h.1, h.2.1, h.2.2.1, fun t i => (h.2.2.2 t i).trans (hpq t i)⟩

theorem addTag_inv {acc : List (String × List String)}
    {P : String → String → Prop} (h : tagsInv acc P) (name t : String) :
    tagsInv (addTag acc name t)
      (fun t' i => P t' i ∨ (t' = t ∧ i = name)) := by
  obtain ⟨hk, hne, hnd, hmem⟩ := h
  refine ⟨?_, addTag_snd acc name t hne, ?_, ?_⟩
  · rw [addTag_keys]
    split
    · exact hk
    · rename_i ht
      rw [List.nodup_append]
      exact ⟨hk, List.nodup_singleton t, List.disjoint_singleton.mpr ht⟩
  · intro t'
    by_cases ht' : t' = t
    · subst ht'
      rw [lookupTag_addTag_self]
      split
      · exact hnd t'
      · rename_i hnmem
        rw [List.nodup_append]
        exact ⟨hnd t', List.nodup_singleton name,
          List.disjoint_singleton.mpr hnmem⟩
    · rw [lookupTag_addTag_ne acc name t t' ht']
      exact hnd t'
  · intro t' i
    by_cases ht' : t' = t
    · subst ht'
      rw [lookupTag_addTag_self]
      constructor
      · intro hi
        split at hi
        · exact Or.inl ((hmem _ i).mp hi)
        · rcases List.mem_append.mp hi with hi | hi
          · exact Or.inl ((hmem _ i).mp hi)
          · rw [List.mem_singleton] at hi
            exact Or.inr ⟨rfl, hi⟩
      · rintro (hi | ⟨_, rfl⟩)
        · split
          · exact (hmem _ i).mpr hi
          · exact List.mem_append_left _ ((hmem _ i).mpr hi)
        · split
          · rename_i hin
            exact hin
          · exact List.mem_append_right _ (List.mem_singleton.mpr rfl)
    · rw [lookupTag_addTag_ne acc name t t' ht']
      constructor
      · intro hi
        exact Or.inl ((hmem t' i).mp hi)
      · rintro (hi | ⟨rfl, _⟩)
        · exact (hmem t' i).mpr hi
        · exact absurd rfl ht'

theorem addAll_inv :
    ∀ (ts : List String) {acc : List (String × List String)}
      {P : String → String → Prop}, tagsInv acc P → ∀ (name : String),
      tagsInv (addAll acc name ts)
        (fun t' i => P t' i ∨ (t' ∈ ts ∧ i = name))
  | [], acc, P, h, name => tagsInv_congr h (by simp)
  | t :: ts, acc, P, h, name => by
    have h2 := addAll_inv ts (addTag_inv h name t) name
    refine tagsInv_congr h2 ?_
    intro t' i
    constructor
    · rintro ((hp | ⟨rfl, rfl⟩) | ⟨hts, rfl⟩)
      · exact Or.inl hp
      · exact Or.inr ⟨List.mem_cons_self _ _, rfl⟩
      · exact Or.inr ⟨List.mem_cons_of_mem _ hts, rfl⟩
    · rintro (hp | ⟨hmem, rfl⟩)
      · exact Or.inl (Or.inl hp)
      · rcases List.mem_cons.mp hmem with rfl | hts
        · exact Or.inl (Or.inr ⟨rfl, rfl⟩)
        · exact Or.inr ⟨hts, rfl⟩

theorem genGo_inv :
    ∀ (ns : List Node) {acc : List (String × List String)}
      {P : String → String → Prop}, tagsInv acc P →
      tagsInv (genGo acc ns)
        (fun t i => P t i ∨ ∃ n ∈ ns, n.id = i ∧ t ∈ n.tags)
  | [], acc, P, h => tagsInv_congr h (by simp)
  | n :: ns, acc, P, h => by
    have h2 := genGo_inv ns (addAll_inv n.tags h n.id)
    refine tagsInv_congr h2 ?_
    intro t i
    constructor
    · rintro ((hp | ⟨ht, rfl⟩) | ⟨m, hm, rfl, htm⟩)
      · exact Or.inl hp
      · exact Or.inr ⟨n, List.mem_cons_self n ns, rfl, ht⟩
      · exact Or.inr ⟨m, List.mem_cons_of_mem n hm, rfl, htm⟩
    · rintro (hp | ⟨m, hm, rfl, htm⟩)
      · exact Or.inl (Or.inl hp)
      · rcases List.mem_cons.mp hm with rfl | hm'
        · exact Or.inl (Or.inr ⟨htm, rfl⟩)
        · exact Or.inr ⟨m, hm', rfl, htm⟩

theorem generateTags_inv (nodes : List Node) :
    tagsInv (generateTags nodes)
      (fun t i => ∃ n ∈ nodes, n.id = i ∧ t ∈ n.tags) := by
  have h0 : tagsInv [] (fun _ _ => False) := by
    refine ⟨by simp, by simp, ?_, ?_⟩
    · intro t
      exact List.nodup_nil
    · intro t i
      simp [lookupTag]
  exact tagsInv_congr (genGo_inv nodes h0) (by simp)

/-- C10: the derived tag index is well-formed: it maps each tag to exactly
the duplicate-free set of ids of included notes whose tag set contains it;
every id in any index entry is the id of an included note, every index
entry is non-empty, and every tag of every included note appears as an
index key. -/
theorem C10_tag_index_wf (nodes : List Node) :
    (∀ p ∈ generateTags nodes, p.2 ≠ [] ∧ p.2.Nodup ∧
      (∀ i, i ∈ p.2 ↔ ∃ n ∈ nodes, n.id = i ∧ p.1 ∈ n.tags) ∧
      (∀ i ∈ p.2, ∃ n ∈ nodes, n.id = i)) ∧
    (∀ n ∈ nodes, ∀ t ∈ n.tags, t ∈ (generateTags nodes).map Prod.fst) := by
  obtain ⟨hk, hne, hnd, hmem⟩ := generateTags_inv nodes
  constructor
  · rintro ⟨t, v⟩ hp
    have hv : lookupTag (generateTags nodes) t = v := mem_eq_lookup hk hp
    refine ⟨hne _ hp, by rw [← hv]; exact hnd t, ?_, ?_⟩
    · intro i
      rw [← hv]
      exact hmem t i
    · intro i hi
      obtain ⟨n, hn, hid, _⟩ := (hmem t i).mp (hv ▸ hi)
      exact ⟨n, hn, hid⟩
  · intro n hn t ht
    apply key_mem_of_lookup_ne
    intro hnil
    have hin : n.id ∈ lookupTag (generateTags nodes) t :=
      (hmem t n.id).mpr ⟨n, hn, rfl, ht⟩
    rw [hnil] at hin
    exact absurd hin (by simp)

/-! ### Stable sorting (Python `sorted(..., reverse=True)`) -/

theorem insRev_perm {α} (ltb : α → α → Bool) (x : α) :
    ∀ (l : List α), (insRev ltb x l).Perm (x :: l)
  | [] => List.Perm.refl _
  | y :: ys => by
    show (if ltb x y then y :: insRev ltb x ys else x :: y :: ys).Perm _
    split
    · exact ((insRev_perm ltb x ys).cons y).trans (List.Perm.swap x y ys)
    · exact List.Perm.refl _

theorem sortRevB_perm {α} (ltb : α → α → Bool) :
    ∀ (l : List α), (sortRevB ltb l).Perm l
  | [] => List.Perm.refl _
  | x :: xs => (insRev_perm ltb x _).trans ((sortRevB_perm ltb xs).cons x)

theorem insRev_pairwise {α} {ltb : α → α → Bool}
    (htr : ∀ a b c, ltb a b = false → ltb b c = false → ltb a c = false)
    (hasym : ∀ a b, ltb a b = true → ltb b a = false) (x : α) :
    ∀ {l : List α}, l.Pairwise (fun a b => ltb a b = false) →
      (insRev ltb x l).Pairwise (fun a b => ltb a b = false)
  | [], _ => by simp [insRev]
  | y :: ys, hl => by
    rw [List.pairwise_cons] at hl
    show (if ltb x y then y :: insRev ltb x ys else x :: y :: ys).Pairwise _
    split
    · rename_i hxy
      rw [List.pairwise_cons]
      constructor
      · intro z hz
        rcases List.mem_cons.mp ((insRev_perm ltb x ys).mem_iff.mp hz)
          with rfl | hz'
        · exact hasym _ _ hxy
        · exact hl.1 z hz'
      · exact insRev_pairwise htr hasym x hl.2
    · rename_i hxy
      have hxy' : ltb x y = false := by
        cases h : ltb x y
        · rfl
        · exact absurd h hxy
      rw [List.pairwise_cons]
      refine ⟨?_, List.pairwise_cons.mpr hl⟩
      intro z hz
      rcases List.mem_cons.mp hz with rfl | hz'
      · exact hxy'
      · exact htr x y z hxy' (hl.1 z hz')

theorem sortRevB_pairwise {α} {ltb : α → α → Bool}
    (htr : ∀ a b c, ltb a b = false → ltb b c = false → ltb a c = false)
    (hasym : ∀ a b, ltb a b = true → ltb b a = false) :
    ∀ (l : List α), (sortRevB ltb l).Pairwise (fun a b => ltb a b = false)
  | [] => List.Pairwise.nil
  | x :: xs => insRev_pairwise htr hasym x (sortRevB_pairwise htr hasym xs)

theorem strLtb_asym {a b : String} (h : strLtb a b = true) :
    strLtb b a = false := by
  cases hba : strLtb b a
  · rfl
  · exact absurd (strLtb_iff.mp hba) (lt_asymm (strLtb_iff.mp h))

theorem strLtb_not_trans {a b c : String} (hab : strLtb a b = false)
    (hbc : strLtb b c = false) : strLtb a c = false := by
  cases hac : strLtb a c
  · rfl
  · exfalso
    have h1 : ¬ a < b := strLtb_false_iff.mp hab
    have h2 : ¬ b < c := strLtb_false_iff.mp hbc
    have h3 : a < c := strLtb_iff.mp hac
    exact absurd (lt_of_lt_of_le h3 (le_trans (not_lt.mp h2) (not_lt.mp h1)))
      (lt_irrefl a)

/-! ### Tuple keys of the frequency listing (C5) -/

theorem keyLtb_iff {a b : Nat × String} :
    keyLtb a b = true ↔ (a.1 < b.1 ∨ (a.1 = b.1 ∧ a.2 < b.2)) := by
  simp [keyLtb, Bool.or_eq_true, Bool.and_eq_true, decide_eq_true_eq,
    strLtb_iff]

theorem keyLtb_asym {a b : Nat × String} (h : keyLtb a b = true) :
    keyLtb b a = false := by
  cases hba : keyLtb b a
  · rfl
  · exfalso
    rcases keyLtb_iff.mp h with h1 | ⟨h1, h2⟩ <;>
      rcases keyLtb_iff.mp hba with g1 | ⟨g1, g2⟩
    · omega
    · omega
    · omega
    · exact absurd g2 (lt_asymm h2)

theorem keyLtb_not_trans {a b c : Nat × String}
    (hab : keyLtb a b = false) (hbc : keyLtb b c = false) :
    keyLtb a c = false := by
  cases hac : keyLtb a c
  · rfl
  · exfalso
    have hab' : ¬ (a.1 < b.1 ∨ (a.1 = b.1 ∧ a.2 < b.2)) := by
      rw [← keyLtb_iff, hab]
      simp
    have hbc' : ¬ (b.1 < c.1 ∨ (b.1 = c.1 ∧ b.2 < c.2)) := by
      rw [← keyLtb_iff, hbc]
      simp
    push_neg at hab' hbc'
    rcases keyLtb_iff.mp hac with h1 | ⟨h1, h2⟩
    · omega
    · have hb1 : a.1 = b.1 := by omega
      have hc1 : b.1 = c.1 := by omega
      have hba2 : b.2 ≤ a.2 := not_lt.mp (hab'.2 hb1)
      have hcb2 : c.2 ≤ b.2 := not_lt.mp (hbc'.2 hc1)
      exact absurd (lt_of_lt_of_le h2 (le_trans hcb2 hba2)) (lt_irrefl a.2)

theorem maxFold_mem :
    ∀ (xs : List String) (x : String),
      xs.foldl (fun a b => if strLtb a b then b else a) x ∈ x :: xs
  | [], x => List.mem_cons_self x []
  | y :: xs, x => by
    rw [List.foldl_cons]
    have ih := maxFold_mem xs (if strLtb x y then y else x)
    rcases List.mem_cons.mp ih with h | h
    · rw [h]
      split
      · exact List.mem_cons_of_mem x (List.mem_cons_self y xs)
      · exact List.mem_cons_self x (y :: xs)
    · exact List.mem_cons_of_mem x (List.mem_cons_of_mem y h)

theorem maxFold_ge :
    ∀ (xs : List String) (x m : String), m ∈ x :: xs →
      ¬ (xs.foldl (fun a b => if strLtb a b then b else a) x) < m
  | [], x, m, hm => by
    rcases List.mem_cons.mp hm with rfl | h
    · exact lt_irrefl _
    · exact absurd h (by simp)
  | y :: xs, x, m, hm => by
    rw [List.foldl_cons]
    by_cases hxy : strLtb x y = true
    · rw [if_pos hxy]
      have hlt : x < y := strLtb_iff.mp hxy
      have ihy := maxFold_ge xs y y (List.mem_cons_self y xs)
      rcases List.mem_cons.mp hm with rfl | hm'
      · intro habs
        exact ihy (lt_trans habs hlt)
      · rcases List.mem_cons.mp hm' with rfl | hm''
        · exact ihy
        · exact maxFold_ge xs y m (List.mem_cons_of_mem y hm'')
    · rw [if_neg hxy]
      have hxy' : ¬ x < y := by
        rw [← strLtb_iff]
        exact hxy
      have ihx := maxFold_ge xs x x (List.mem_cons_self x xs)
      rcases List.mem_cons.mp hm with rfl | hm'
      · exact ihx
      · rcases List.mem_cons.mp hm' with rfl | hm''
        · intro habs
          exact hxy' (lt_of_le_of_lt (not_lt.mp ihx) habs)
        · exact maxFold_ge xs x m (List.mem_cons_of_mem x hm'')

theorem listMax_mem : ∀ {l : List String}, l ≠ [] → listMax l ∈ l
  | [], h => absurd rfl h
  | x :: xs, _ => maxFold_mem xs x

theorem listMax_ge {l : List String} {m : String} (hm : m ∈ l) :
    ¬ listMax l < m := by
  cases l with
  | nil => exact absurd hm (by simp)
  | cons x xs => exact maxFold_ge xs x m hm

theorem listMax_eq_of_mem_iff {l₁ l₂ : List String} (h1 : l₁ ≠ [])
    (h : ∀ x, x ∈ l₁ ↔ x ∈ l₂) : listMax l₁ = listMax l₂ := by
  have hm1 : listMax l₁ ∈ l₂ := (h _).mp (listMax_mem h1)
  have h2 : l₂ ≠ [] := List.ne_nil_of_mem hm1
  have hm2 : listMax l₂ ∈ l₁ := (h _).mpr (listMax_mem h2)
  exact le_antisymm (not_lt.mp (listMax_ge hm1)) (not_lt.mp (listMax_ge hm2))

theorem tag_entry_members {nodes : List Node} {t : String}
    {v : List String} (hv : (t, v) ∈ generateTags nodes) :
    ∀ i, i ∈ v ↔ i ∈ (nodes.filter (fun n => t ∈ n.tags)).map Node.id := by
  obtain ⟨hk, _, _, hmem⟩ := generateTags_inv nodes
  have hlook := mem_eq_lookup hk hv
  intro i
  rw [← hlook, hmem t i]
  constructor
  · rintro ⟨n, hn, rfl, ht⟩
    exact List.mem_map_of_mem Node.id
      (List.mem_filter.mpr ⟨hn, by simp [ht]⟩)
  · intro hi
    obtain ⟨n, hn, rfl⟩ := List.mem_map.mp hi
    have hn' := List.mem_filter.mp hn
    exact ⟨n, hn'.1, rfl, by simpa using hn'.2⟩

theorem freqKey_eq_specKey {nodes : List Node}
    (h : (nodes.map Node.id).Nodup) {p : String × Nat}
    (hp : p ∈ freqList nodes) :
    freqKeyOf (generateTags nodes) p = specKeyOf nodes p.1 := by
  obtain ⟨q, hq, hpq⟩ := List.mem_map.mp hp
  obtain ⟨t, v⟩ := q
  obtain ⟨hk, hne, hnd, hmem⟩ := generateTags_inv nodes
  have hlook : lookupTag (generateTags nodes) t = v := mem_eq_lookup hk hq
  have hmembers := tag_entry_members hq
  have hvnodup : v.Nodup := hlook ▸ hnd t
  have hfnodup : ((nodes.filter (fun n => t ∈ n.tags)).map Node.id).Nodup :=
    List.Nodup.sublist (List.Sublist.map Node.id (List.filter_sublist nodes)) h
  have hperm : v.Perm ((nodes.filter (fun n => t ∈ n.tags)).map Node.id) :=
    (List.perm_ext_iff_of_nodup hvnodup hfnodup).mpr hmembers
  have hlen : v.length = (nodes.filter (fun n => t ∈ n.tags)).length := by
    rw [hperm.length_eq, List.length_map]
  have hmax : listMax v =
      listMax ((nodes.filter (fun n => t ∈ n.tags)).map Node.id) :=
    listMax_eq_of_mem_iff (hne _ hq) hmembers
  rw [← hpq]
  show (v.length, listMax (lookupTag (generateTags nodes) t)) =
    ((nodes.filter (fun n => t ∈ n.tags)).length,
      listMax ((nodes.filter (fun n => t ∈ n.tags)).map Node.id))
  rw [hlook, hlen, hmax]

/-- C5: in the tag-index frequency listing, tags are sorted descending by
the pair (number of notes carrying the tag, maximum note id among those
notes), each entry annotated with its count, and the listing covers
exactly the tag-index entries. -/
theorem C5_freq_sort (nodes : List Node) (h : (nodes.map Node.id).Nodup) :
    (freqSorted nodes).Pairwise
      (fun a b => keyLtb (specKeyOf nodes a.1) (specKeyOf nodes b.1) = false) ∧
    (∀ p ∈ freqSorted nodes,
      p.2 = (nodes.filter (fun n => p.1 ∈ n.tags)).length) ∧
    (freqSorted nodes).Perm (freqList nodes) := by
  have hperm : (freqSorted nodes).Perm (freqList nodes) :=
    sortRevB_perm _ _
  have hpair := @sortRevB_pairwise _
    (fun x y =>
      keyLtb (freqKeyOf (generateTags nodes) x)
        (freqKeyOf (generateTags nodes) y))
    (fun a b c => keyLtb_not_trans) (fun a b => keyLtb_asym) (freqList nodes)
  refine ⟨?_, ?_, hperm⟩
  · refine List.Pairwise.imp_of_mem ?_ hpair
    intro a b ha hb hab
    rw [← freqKey_eq_specKey h (hperm.mem_iff.mp ha),
      ← freqKey_eq_specKey h (hperm.mem_iff.mp hb)]
    exact hab
  · intro p hp
    have hp' := hperm.mem_iff.mp hp
    obtain ⟨q, hq, hpq⟩ := List.mem_map.mp hp'
    obtain ⟨t, v⟩ := q
    have hmembers := tag_entry_members hq
    obtain ⟨hk, hne, hnd, _⟩ := generateTags_inv nodes
    have hvnodup : v.Nodup := (mem_eq_lookup hk hq) ▸ hnd t
    have hfnodup :
        ((nodes.filter (fun n => t ∈ n.tags)).map Node.id).Nodup :=
      List.Nodup.sublist (List.Sublist.map Node.id (List.filter_sublist nodes)) h
    have hvperm : v.Perm ((nodes.filter (fun n => t ∈ n.tags)).map Node.id) :=
      (List.perm_ext_iff_of_nodup hvnodup hfnodup).mpr hmembers
    rw [← hpq]
    show v.length = (nodes.filter (fun n => t ∈ n.tags)).length
    rw [hvperm.length_eq, List.length_map]

/-- C5 witness: a two-note graph; the theorem's hypotheses hold and the
count annotations match. -/
theorem C5_freq_sort_witness :
    (([mkNode "a" "#x", mkNode "b" "#x\n#y"].map Node.id).Nodup) ∧
      ∀ p ∈ freqSorted [mkNode "a" "#x", mkNode "b" "#x\n#y"],
        p.2 = ([mkNode "a" "#x", mkNode "b" "#x\n#y"].filter
          (fun n => p.1 ∈ n.tags)).length :=
  ⟨by decide,
    (C5_freq_sort [mkNode "a" "#x", mkNode "b" "#x\n#y"] (by decide)).2.1⟩

/-! ### The aggregate listing and export jobs (C9, C7) -/

theorem lookupNode_id :
    ∀ {nodes : List Node}, (nodes.map Node.id).Nodup →
      ∀ {n : Node}, n ∈ nodes → lookupNode nodes n.id = some n
  | [], _, n, hn => absurd hn (by simp)
  | m :: nodes, h, n, hn => by
    rw [List.map_cons, List.nodup_cons] at h
    rcases List.mem_cons.mp hn with rfl | hn'
    · show List.find? _ (n :: nodes) = some n
      rw [List.find?_cons_of_pos _ (by simp)]
    · have hne : ¬ (m.id = n.id) := by
        intro hh
        exact h.1 (hh ▸ List.mem_map_of_mem Node.id hn')
      have hstep : lookupNode (m :: nodes) n.id = lookupNode nodes n.id := by
        show List.find? _ (m :: nodes) = _
        rw [List.find?_cons_of_neg _ (by simp [hne])]
        rfl
      rw [hstep]
      exact lookupNode_id h.2 hn'

theorem filterMap_congr_mem {α β} {f g : α → Option β} :
    ∀ {l : List α}, (∀ a ∈ l, f a = g a) → l.filterMap f = l.filterMap g
  | [], _ => rfl
  | a :: l, h => by
    rw [List.filterMap_cons, List.filterMap_cons,
      h a (List.mem_cons_self a l),
      filterMap_congr_mem (fun x hx => h x (List.mem_cons_of_mem a hx))]

theorem filterMap_lookup_self :
    ∀ {nodes : List Node}, (nodes.map Node.id).Nodup →
      (nodes.map Node.id).filterMap (lookupNode nodes) = nodes
  | [], _ => rfl
  | m :: nodes, h => by
    have h' := h
    rw [List.map_cons, List.nodup_cons] at h'
    rw [List.map_cons, List.filterMap_cons,
      lookupNode_id h (List.mem_cons_self m nodes)]
    have hcongr : (nodes.map Node.id).filterMap (lookupNode (m :: nodes)) =
        (nodes.map Node.id).filterMap (lookupNode nodes) := by
      refine filterMap_congr_mem ?_
      intro i hi
      obtain ⟨n, hn, rfl⟩ := List.mem_map.mp hi
      have hne : ¬ (m.id = n.id) := by
        intro hh
        exact h'.1 (hh ▸ List.mem_map_of_mem Node.id hn)
      show List.find? _ (m :: nodes) = _
      rw [List.find?_cons_of_neg _ (by simp [hne])]
      rfl
    rw [hcongr, filterMap_lookup_self h'.2]

/-- When every job's markdown resolves, every job is written. -/
theorem runJobs_map_fst (nodes : List Node) :
    ∀ (jobs : List (String × String)),
      (∀ j ∈ jobs, (pageOut nodes j.1 j.2).isSome) →
      runJobs nodes jobs = jobs.map Prod.fst
  | [], _ => rfl
  | (name, body) :: rest, h => by
    obtain ⟨x, hx⟩ := Option.isSome_iff_exists.mp
      (h (name, body) (List.mem_cons_self _ _))
    simp only [runJobs, hx, List.map_cons]
    rw [runJobs_map_fst nodes rest
      (fun j hj => h j (List.mem_cons_of_mem _ hj))]

/-- C9 counterexample: a single note whose body links to `/node` makes
`resolve_links` raise inside the very first export job, so this nonempty
graph writes nothing — no node page and no `all.html`; and the empty
graph's job list holds no `all.html` either. -/
theorem C9_counterexample :
    exportWrites [mkNode "a" "[x](/node)"] none = [] ∧
    ¬ ("all.html" ∈ (exportJobs [] none).map Prod.fst) := by decide

/-- C9 (amended): for every graph with at least one included note whose
export pages all resolve their links, the export writes the aggregate page
`all.html` listing every included note ordered by id descending and one
page per included note at `node/<id>.html`; a graph with zero notes writes
no `all.html`, and a failing page aborts the whole run. -/
theorem C9_export_amended (nodes : List Node) (style : Option String)
    (h1 : nodes ≠ []) (h2 : (nodes.map Node.id).Nodup)
    (h3 : ∀ j ∈ exportJobs nodes none, (pageOut nodes j.1 j.2).isSome) :
    "all.html" ∈ exportWrites nodes style ∧
    (∀ n ∈ nodes,
      ("node/" ++ n.id ++ ".html") ∈ exportWrites nodes style) ∧
    ("all.html", allNodesStr nodes) ∈ exportJobs nodes none ∧
    (∀ n ∈ nodes,
      ("node/" ++ n.id ++ ".html", n.content) ∈ exportJobs nodes none) ∧
    allNodesStr nodes = node_list
      ((sortRevB strLtb (nodes.map Node.id)).filterMap (lookupNode nodes))
      "All nodes" ∧
    (sortRevB strLtb (nodes.map Node.id)).Pairwise (fun a b => ¬ a < b) ∧
    (sortRevB strLtb (nodes.map Node.id)).Perm (nodes.map Node.id) ∧
    ((sortRevB strLtb (nodes.map Node.id)).filterMap
      (lookupNode nodes)).Perm nodes := by
  have hne : ¬ (nodes.isEmpty = true) := by
    simp [List.isEmpty_iff, h1]
  have hrun : runJobs nodes (exportJobs nodes none) =
      (exportJobs nodes none).map Prod.fst :=
    runJobs_map_fst nodes _ h3
  have hw : ∀ p ∈ (exportJobs nodes none).map Prod.fst,
      p ∈ exportWrites nodes style := by
    intro p hp
    simp only [exportWrites]
    rw [hrun, List.length_map, if_pos rfl]
    exact List.mem_append_left _ hp
  have hall : ("all.html", allNodesStr nodes) ∈ exportJobs nodes none := by
    rw [exportJobs.eq_def, if_neg hne]
    exact List.mem_append_left _
      (List.mem_append_left _
        (List.mem_append_left _
          (List.mem_append_right _ (List.mem_singleton.mpr rfl))))
  have hnode : ∀ n ∈ nodes,
      ("node/" ++ n.id ++ ".html", n.content) ∈ exportJobs nodes none := by
    intro n hn
    rw [exportJobs.eq_def, if_neg hne]
    exact List.mem_append_left _
      (List.mem_append_left _
        (List.mem_append_left _
          (List.mem_append_left _
            (List.mem_map_of_mem
              (fun n => ("node/" ++ n.id ++ ".html", n.content)) hn))))
  refine ⟨hw _ (List.mem_map_of_mem Prod.fst hall),
    fun n hn => hw _ (List.mem_map_of_mem Prod.fst (hnode n hn)),
    hall, hnode, ?_, ?_, sortRevB_perm _ _, ?_⟩
  · rw [allNodesStr, if_neg hne]
  · refine List.Pairwise.imp_of_mem ?_
      (@sortRevB_pairwise String strLtb
        (fun a b c hab hbc => strLtb_not_trans hab hbc)
        (fun a b h => strLtb_asym h) (nodes.map Node.id))
    intro a b _ _ hab
    exact strLtb_false_iff.mp hab
  · have hp : (sortRevB strLtb (nodes.map Node.id)).filterMap
        (lookupNode nodes) |>.Perm
        ((nodes.map Node.id).filterMap (lookupNode nodes)) :=
      List.Perm.filterMap _ (sortRevB_perm _ _)
    rw [filterMap_lookup_self h2] at hp
    exact hp

/-- C9 witness: a one-note graph whose three pages all resolve; the
amended theorem yields that `all.html` is actually written. -/
theorem C9_export_amended_witness :
    ([mkNode "a" "x"] ≠ ([] : List Node)) ∧
      (∀ j ∈ exportJobs [mkNode "a" "x"] none,
        (pageOut [mkNode "a" "x"] j.1 j.2).isSome) ∧
      "all.html" ∈ exportWrites [mkNode "a" "x"] none :=
  ⟨by decide, by decide,
    (C9_export_amended [mkNode "a" "x"] none (by decide) (by decide)
      (by decide)).1⟩

/-- C7: on the empty graph, `all_nodes` and `top` return the explicit
"no nodes" placeholder (which no populated listing ever equals), and export
writes exactly the home page `index.html` — in particular no `tags.html`. -/
theorem C7_empty_graph :
    allNodesStr [] = noNodesMsg ∧
    (∀ ns : List Node, ns ≠ [] → allNodesStr ns ≠ noNodesMsg) ∧
    topStr [] = noNodesMsg ∧
    (exportJobs [] none).map Prod.fst = ["index.html"] ∧
    "tags.html" ∉ (exportJobs [] none).map Prod.fst := by
  refine ⟨by decide, ?_, by decide, by decide, by decide⟩
  intro ns hne heq
  have h1 : allNodesStr ns =
      node_list ((sortRevB strLtb (ns.map Node.id)).filterMap (lookupNode ns))
        "All nodes" := by
    rw [allNodesStr, if_neg (by simp [List.isEmpty_iff, hne])]
  have h13 : (allNodesStr ns).data.get? 13 = some '*' := by
    rw [h1]
    show (("# " ++ "All nodes" ++ "\n\n*(generated automatically)*\n\n") ++
      "\n".intercalate
        (((sortRevB strLtb (ns.map Node.id)).filterMap (lookupNode ns)).map
          (fun n => "- " ++ asEntry n))).data.get? 13 = some '*'
    rw [String.data_append, List.get?_append (by decide)]
    decide
  rw [heq] at h13
  exact absurd h13 (by decide)

/-- C7 witness: a populated listing differs from the placeholder. -/
theorem C7_empty_graph_witness :
    ([mkNode "a" "A"] ≠ []) ∧ allNodesStr [mkNode "a" "A"] ≠ noNodesMsg :=
  ⟨by decide, C7_empty_graph.2.1 [mkNode "a" "A"] (by decide)⟩

/-! ### Path relativization (C1) -/

theorem head?_mem' {α} {l : List α} {a : α} (h : l.head? = some a) :
    a ∈ l := by
  cases l with
  | nil => exact absurd h (by simp)
  | cons c cs =>
    injection h with hc
    rw [← hc]
    exact List.mem_cons_self c cs

theorem plainSeg_spec {x : List Char} (h : plainSeg x = true) :
    x ≠ [] ∧ (∀ c ∈ x, c ≠ '/') ∧ x ≠ ['.'] := by
  simp only [plainSeg, Bool.and_eq_true, Bool.not_eq_true'] at h
  obtain ⟨⟨h1, h2⟩, h3⟩ := h
  refine ⟨by simpa [List.isEmpty_iff] using h1, ?_, by simpa using h3⟩
  intro c hc hcs
  subst hcs
  rw [← List.elem_iff] at hc
  have hc' : x.contains '/' = true := hc
  rw [h2] at hc'
  exact absurd hc' (by simp)

theorem plainSeg_props {x : List Char} (h : plainSeg x = true) :
    x ≠ [] ∧ x.head? ≠ some '/' ∧ x.getLast? ≠ some '/' := by
  obtain ⟨h1, h2, _⟩ := plainSeg_spec h
  refine ⟨h1, ?_, ?_⟩
  · intro hh
    cases x with
    | nil => exact absurd hh (by simp)
    | cons c cs =>
      injection hh with hc
      exact h2 c (List.mem_cons_self c cs) hc
  · intro hh
    exact h2 '/' (getLast?_mem' hh) rfl

theorem splitOnC_intercalate {sep : Char} :
    ∀ (ts : List (List Char)), ts ≠ [] →
      (∀ seg ∈ ts, ∀ c ∈ seg, c ≠ sep) →
      splitOnC sep (intercalateC sep ts) = ts
  | [], h, _ => absurd rfl h
  | [x], _, hs => splitOnC_no_sep (hs x (List.mem_cons_self x []))
  | x :: y :: ts, _, hs => by
    show splitOnC sep (x ++ sep :: intercalateC sep (y :: ts)) = x :: y :: ts
    rw [splitOnC_append _ (hs x (List.mem_cons_self x (y :: ts)))]
    rw [splitOnC_intercalate (y :: ts) (by simp)
      (fun seg hseg => hs seg (List.mem_cons_of_mem x hseg))]

theorem intercalateC_head {sep : Char} {x : List Char} (hx : x ≠ [])
    (ts : List (List Char)) :
    (intercalateC sep (x :: ts)).head? = x.head? := by
  cases ts with
  | nil => rfl
  | cons y ys =>
    show (x ++ sep :: intercalateC sep (y :: ys)).head? = x.head?
    rw [List.head?_append]
    cases x with
    | nil => exact absurd rfl hx
    | cons c cs => rfl

theorem pyParts_abs {ts : List (List Char)} (hne : ts ≠ [])
    (hplain : ∀ seg ∈ ts, plainSeg seg = true) :
    pyParts (absTargetStr ts) = ['/'] :: ts := by
  obtain ⟨x, ts', rfl⟩ : ∃ x ts', ts = x :: ts' := by
    cases ts with
    | nil => exact absurd rfl hne
    | cons x ts' => exact ⟨x, ts', rfl⟩
  have hx := plainSeg_spec (hplain x (List.mem_cons_self x ts'))
  have hdrop1 : ((absTargetStr (x :: ts')).drop 1).head? ≠ some '/' := by
    show (intercalateC '/' (x :: ts')).head? ≠ some '/'
    rw [intercalateC_head hx.1 ts']
    intro hh
    exact hx.2.1 '/' (head?_mem' hh) rfl
  simp only [pyParts, absTargetStr]
  rw [if_pos (show ('/' :: intercalateC '/' (x :: ts')).head? = some '/'
      from rfl),
    if_neg (fun hand => hdrop1 hand.1)]
  rw [show splitOnC '/' ('/' :: intercalateC '/' (x :: ts')) =
      [] :: splitOnC '/' (intercalateC '/' (x :: ts')) from by
    simp [splitOnC]]
  rw [splitOnC_intercalate (x :: ts') (by simp)
    (fun seg hseg => (plainSeg_spec (hplain seg hseg)).2.1)]
  rw [show List.filter (fun s => decide (s ≠ [] ∧ s ≠ ['.']))
      ([] :: x :: ts') = List.filter
        (fun s => decide (s ≠ [] ∧ s ≠ ['.'])) (x :: ts') from by
    simp]
  rw [List.filter_eq_self.mpr]
  intro a ha
  have := plainSeg_spec (hplain a ha)
  simp [this.1, this.2.2]

theorem pageStr_head {ds : List (List Char)} {fname : List Char}
    (hplain : ∀ seg ∈ ds, plainSeg seg = true) (hf : plainSeg fname = true) :
    (pageStr ds fname).head? ≠ some '/' := by
  cases ds with
  | nil =>
    show (intercalateC '/' ([] ++ [fname])).head? ≠ some '/'
    rw [List.nil_append, intercalateC_head (plainSeg_spec hf).1 []]
    intro hh
    exact (plainSeg_spec hf).2.1 '/' (head?_mem' hh) rfl
  | cons d ds' =>
    have hd := plainSeg_spec (hplain d (List.mem_cons_self d ds'))
    show (intercalateC '/' ((d :: ds') ++ [fname])).head? ≠ some '/'
    rw [List.cons_append, intercalateC_head hd.1 (ds' ++ [fname])]
    intro hh
    exact hd.2.1 '/' (head?_mem' hh) rfl

theorem pyParts_rel {ds : List (List Char)} {fname : List Char}
    (hplain : ∀ seg ∈ ds, plainSeg seg = true) (hf : plainSeg fname = true) :
    pyParts (pageStr ds fname) = ds ++ [fname] := by
  have hall : ∀ seg ∈ ds ++ [fname], plainSeg seg = true := by
    intro seg hseg
    rcases List.mem_append.mp hseg with hseg | hseg
    · exact hplain seg hseg
    · rw [List.mem_singleton.mp hseg]
      exact hf
  have hne : ds ++ [fname] ≠ [] := by simp
  simp only [pyParts, pageStr]
  rw [if_neg (show ¬ ((intercalateC '/' (ds ++ [fname])).head? = some '/')
    from pageStr_head hplain hf)]
  rw [splitOnC_intercalate (ds ++ [fname]) hne
    (fun seg hseg => (plainSeg_spec (hall seg hseg)).2.1)]
  rw [List.filter_eq_self.mpr]
  intro a ha
  have := plainSeg_spec (hall a ha)
  simp [this.1, this.2.2]

theorem rootJoin_page {ds : List (List Char)} {fname : List Char}
    (hplain : ∀ seg ∈ ds, plainSeg seg = true) (hf : plainSeg fname = true) :
    rootJoin (pageStr ds fname) = ['/'] :: (ds ++ [fname]) := by
  rw [rootJoin, if_neg (pageStr_head hplain hf), pyParts_rel hplain hf]

theorem parentParts_page {ds : List (List Char)} {fname : List Char} :
    parentParts (['/'] :: (ds ++ [fname])) = ['/'] :: ds := by
  rw [parentParts, if_pos (Or.inl rfl), List.dropLast_concat]

theorem stripCommon_root (ts ds : List (List Char)) :
    stripCommon (['/'] :: ts) (['/'] :: ds) = stripCommon ts ds := by
  simp [stripCommon]

theorem stripCommon_sub :
    ∀ (ts ds : List (List Char)),
      (∀ x ∈ (stripCommon ts ds).1, x ∈ ts) ∧
      (∀ x ∈ (stripCommon ts ds).2, x ∈ ds)
  | [], ds =>
    ⟨fun x h => absurd h (by simp [stripCommon]),
     fun x h => by simpa [stripCommon] using h⟩
  | a :: as, [] =>
    ⟨fun x h => by simpa [stripCommon] using h,
     fun x h => absurd h (by simp [stripCommon])⟩
  | a :: as, b :: bs => by
    by_cases hab : a = b
    · have ih := stripCommon_sub as bs
      rw [show stripCommon (a :: as) (b :: bs) = stripCommon as bs from by
        simp [stripCommon, hab]]
      exact ⟨fun x h => List.mem_cons_of_mem a (ih.1 x h),
        fun x h => List.mem_cons_of_mem b (ih.2 x h)⟩
    · rw [show stripCommon (a :: as) (b :: bs) = (a :: as, b :: bs) from by
        simp [stripCommon, hab]]
      exact ⟨fun x h => h, fun x h => h⟩

theorem joinOne_plain {a b : List Char} (ha : a ≠ [])
    (hlast : a.getLast? ≠ some '/') (hb : b.head? ≠ some '/') :
    joinOne a b = a ++ '/' :: b := by
  rw [joinOne, if_neg hb, if_neg (not_or.mpr ⟨ha, hlast⟩)]

theorem foldl_joinOne :
    ∀ (xs : List (List Char)) (a : List Char), a ≠ [] →
      a.getLast? ≠ some '/' →
      (∀ x ∈ xs, x ≠ [] ∧ x.head? ≠ some '/' ∧ x.getLast? ≠ some '/') →
      xs.foldl joinOne a = intercalateC '/' (a :: xs)
  | [], a, _, _, _ => rfl
  | x :: xs, a, ha, hal, hx => by
    rw [List.foldl_cons]
    obtain ⟨hx1, hx2, hx3⟩ := hx x (List.mem_cons_self x xs)
    rw [joinOne_plain ha hal hx2]
    have hlast' : (a ++ '/' :: x).getLast? ≠ some '/' := by
      rw [List.getLast?_append_of_ne_nil a (by simp)]
      rw [show ('/' :: x).getLast? = x.getLast? from by
        cases x with
        | nil => exact absurd rfl hx1
        | cons c cs => exact List.getLast?_cons_cons]
      exact hx3
    rw [foldl_joinOne xs (a ++ '/' :: x) (by simp) hlast'
      (fun y hy => hx y (List.mem_cons_of_mem x hy))]
    cases xs with
    | nil => rfl
    | cons y ys =>
      show (a ++ '/' :: x) ++ '/' :: intercalateC '/' (y :: ys) =
        a ++ '/' :: (x ++ '/' :: intercalateC '/' (y :: ys))
      rw [List.append_assoc, List.cons_append]

theorem osJoin_plain {parts : List (List Char)} (hne : parts ≠ [])
    (hall : ∀ x ∈ parts,
      x ≠ [] ∧ x.head? ≠ some '/' ∧ x.getLast? ≠ some '/') :
    osJoin parts = some (intercalateC '/' parts) := by
  cases parts with
  | nil => exact absurd rfl hne
  | cons a xs =>
    obtain ⟨h1, h2, h3⟩ := hall a (List.mem_cons_self a xs)
    show some _ = _
    rw [foldl_joinOne xs a h1 h3
      (fun y hy => hall y (List.mem_cons_of_mem a hy))]

/-- C1 counterexample: a target whose segments equal the current page's
directory strips to zero parts on both sides, and `os.path.join(*[])`
raises `TypeError` — no rewritten target is produced, so the claimed
formula does not hold on all of its stated domain. -/
theorem C1_counterexample :
    resolve_path ("/node" : String).data
      (rootJoin ("node/bar.html" : String).data) = none := by decide

/-- C1 (amended): for every absolute link target and current page path
built from plain segments such that stripping the common prefix leaves at
least one segment, the rewritten target is the spec's formula — strip the
longest common leading-segment prefix of the target and the page's
directory, then `..` once per remaining directory segment followed by the
remaining target segments, joined into a path; and the claim's two
examples hold through the full link-rewriting pipeline.  (When stripping
leaves nothing, the join raises instead — the counterexample above.) -/
theorem C1_relativize (ts ds : List (List Char)) (fname : List Char)
    (hts : ts ≠ []) (hplain : ∀ seg ∈ ts ++ ds, plainSeg seg = true)
    (hf : plainSeg fname = true)
    (hnz : stripCommon ts ds ≠ ([], [])) :
    resolve_path (absTargetStr ts) (rootJoin (pageStr ds fname)) =
      some (specRelativize ts ds) ∧
    resolveLinksStr "[x](/tag/foo)" (some "node/bar.html") (some "html") =
      some "[x](../tag/foo.html)" ∧
    resolveLinksStr "[x](/node/bar)" (some "node/bar.html") (some "html") =
      some "[x](bar.html)" := by
  refine ⟨?_, by decide, by decide⟩
  have hplain₁ : ∀ seg ∈ ts, plainSeg seg = true := fun seg hseg =>
    hplain seg (List.mem_append_left ds hseg)
  have hplain₂ : ∀ seg ∈ ds, plainSeg seg = true := fun seg hseg =>
    hplain seg (List.mem_append_right ts hseg)
  rw [resolve_path, pyParts_abs hts hplain₁, rootJoin_page hplain₂ hf,
    parentParts_page, stripCommon_root]
  have hsub := stripCommon_sub ts ds
  have hall : ∀ x ∈ List.replicate (stripCommon ts ds).2.length
      ['.', '.'] ++ (stripCommon ts ds).1,
      x ≠ [] ∧ x.head? ≠ some '/' ∧ x.getLast? ≠ some '/' := by
    intro x hx
    rcases List.mem_append.mp hx with hx | hx
    · rw [List.eq_of_mem_replicate hx]
      refine ⟨by simp, by simp, by simp⟩
    · exact plainSeg_props (hplain₁ x (hsub.1 x hx))
  have hne : List.replicate (stripCommon ts ds).2.length ['.', '.'] ++
      (stripCommon ts ds).1 ≠ [] := by
    intro hnil
    rw [List.append_eq_nil] at hnil
    obtain ⟨hr, h1⟩ := hnil
    have h2 : (stripCommon ts ds).2 = [] := by
      have hlen := congrArg List.length hr
      rw [List.length_replicate, List.length_nil] at hlen
      exact List.length_eq_zero.mp hlen
    exact hnz (Prod.ext h1 h2)
  rw [osJoin_plain hne hall]
  rfl

/-- C1 witness: the general relativization formula applied to target
`/tag/foo` from page `node/bar.html`. -/
theorem C1_relativize_witness :
    (stripCommon [("tag" : String).data, ("foo" : String).data]
        [("node" : String).data] ≠ ([], [])) ∧
      resolve_path (absTargetStr [("tag" : String).data, ("foo" : String).data])
          (rootJoin (pageStr [("node" : String).data]
            ("bar.html" : String).data)) =
        some (specRelativize [("tag" : String).data, ("foo" : String).data]
          [("node" : String).data]) :=
  ⟨by decide,
    (C1_relativize [("tag" : String).data, ("foo" : String).data]
      [("node" : String).data] ("bar.html" : String).data (by decide)
      (by decide) (by decide) (by decide)).1⟩

/-- C3 witness: two `top`-tagged notes, both construction orders give the
note with the smaller id. -/
theorem C3_top_node_witness :
    inferTopNode [mkNode "b" "#top", mkNode "a" "#top"] =
      inferTopNode [mkNode "a" "#top", mkNode "b" "#top"] ∧
    (inferTopNode [mkNode "b" "#top", mkNode "a" "#top"]).map Node.id =
      some "a" :=
  ⟨(C3_top_node [mkNode "b" "#top", mkNode "a" "#top"]
      [mkNode "a" "#top", mkNode "b" "#top"] (by decide) (by decide)).1,
    by decide⟩

/-! ### Extension appending (C4) -/

/-- C4 counterexample: with a current page, relativization runs before the
extension check and `pathlib` drops the trailing slash, so the
trailing-slash target `/tag/foo/` still gains the extension. -/
theorem C4_counterexample :
    resolveLinksStr "[x](/tag/foo/)" (some "node/bar.html") (some "html") =
      some "[x](../tag/foo.html)" := by decide

/-- C4 (amended): the extension check applies to the already-relativized
path: a path ending in `/` gains no extension, and a path whose final
segment contains no dot gains one.  With a current page the relativization
step drops a trailing slash first, so `/tag/foo/` still ends up with
`.html`; only without a current page does the trailing slash survive and
block the extension. -/
theorem C4_extension_amended :
    (∀ (e p : List Char), p.getLast? = some '/' →
      applyExt (some e) p = p) ∧
    (∀ (e p : List Char), p.getLast? ≠ some '/' → '.' ∉ lastSeg p →
      applyExt (some e) p = p ++ '.' :: e) ∧
    resolveLinksStr "[x](/tag/foo)" (some "node/bar.html") (some "html") =
      some "[x](../tag/foo.html)" ∧
    resolveLinksStr "[x](/tag/foo/)" none (some "html") =
      some "[x](/tag/foo/)" := by
  refine ⟨?_, ?_, by decide, by decide⟩
  · intro e p h
    show (if p.getLast? = some '/' then p
          else if '.' ∈ lastSeg p then p else p ++ '.' :: e) = p
    rw [if_pos h]
  · intro e p h1 h2
    show (if p.getLast? = some '/' then p
          else if '.' ∈ lastSeg p then p else p ++ '.' :: e) =
        p ++ '.' :: e
    rw [if_neg h1, if_neg h2]

/-- C4 witness: the trailing-slash clause of the amended theorem at a
concrete path. -/
theorem C4_extension_amended_witness :
    (("x/" : String).data.getLast? = some '/') ∧
      applyExt (some ("html" : String).data) ("x/" : String).data =
        ("x/" : String).data :=
  ⟨by decide,
    C4_extension_amended.1 ("html" : String).data ("x/" : String).data
      (by decide)⟩

/-! ### Totality of link resolution (C6) -/

theorem scanTgt1_len :
    ∀ (s acc t r : List Char),
      scanTgt1 acc s = some (t, r) → r.length < s.length
  | [], acc, t, r, h => absurd h (by simp [scanTgt1])
  | d :: rest, acc, t, r, h => by
    simp only [scanTgt1] at h
    by_cases h1 : d = ')'
    · rw [if_pos h1] at h
      have h2 : r = rest := by
        injection h with h'
        rw [Prod.mk.injEq] at h'
        exact h'.2.symm
      rw [h2]
      simp only [List.length_cons]
      omega
    · rw [if_neg h1] at h
      by_cases h2 : d = '/'
      · rw [if_pos h2] at h
        exact absurd h (by simp)
      · rw [if_neg h2] at h
        exact Nat.lt_trans (scanTgt1_len rest (d :: acc) t r h)
          (by simp only [List.length_cons]; omega)

theorem scanTgt2_len :
    ∀ (s acc t r : List Char),
      scanTgt2 acc s = some (t, r) → r.length < s.length
  | [], acc, t, r, h => absurd h (by simp [scanTgt2])
  | d :: rest, acc, t, r, h => by
    simp only [scanTgt2] at h
    by_cases h1 : d = ')' ∧ 2 ≤ acc.length
    · rw [if_pos h1] at h
      have h2 : r = rest := by
        injection h with h'
        rw [Prod.mk.injEq] at h'
        exact h'.2.symm
      rw [h2]
      simp only [List.length_cons]
      omega
    · rw [if_neg h1] at h
      by_cases h2 : d = '\n'
      · rw [if_pos h2] at h
        exact absurd h (by simp)
      · rw [if_neg h2] at h
        exact Nat.lt_trans (scanTgt2_len rest (d :: acc) t r h)
          (by simp only [List.length_cons]; omega)

theorem tgt1_len :
    ∀ (s t r : List Char), tgt1 s = some (t, r) → r.length < s.length
  | [], t, r, h => absurd h (by simp [tgt1])
  | c :: rest, t, r, h => by
    simp only [tgt1] at h
    by_cases h1 : c = '/'
    · rw [if_pos h1] at h
      exact absurd h (by simp)
    · rw [if_neg h1] at h
      exact Nat.lt_trans (scanTgt1_len rest [c] t r h)
        (by simp only [List.length_cons]; omega)

theorem tgt2_len :
    ∀ (s t r : List Char), tgt2 s = some (t, r) → r.length < s.length
  | [], t, r, h => absurd h (by simp [tgt2])
  | c :: rest, t, r, h => by
    simp only [tgt2] at h
    by_cases h1 : c = '/'
    · rw [if_pos h1] at h
      exact Nat.lt_trans (scanTgt2_len rest ['/'] t r h)
        (by simp only [List.length_cons]; omega)
    · rw [if_neg h1] at h
      exact absurd h (by simp)

theorem labScan_len (tgtFn : List Char → Option (List Char × List Char))
    (htgt : ∀ s t r, tgtFn s = some (t, r) → r.length < s.length) :
    ∀ (fuel : Nat) (acc s l t r : List Char),
      labScan tgtFn fuel acc s = some (l, t, r) → r.length < s.length
  | 0, acc, s, l, t, r, h => absurd h (by simp [labScan])
  | fuel + 1, acc, [], l, t, r, h => absurd h (by simp [labScan])
  | fuel + 1, acc, c :: rest, l, t, r, h => by
    simp only [labScan] at h
    by_cases h1 : c = ']' ∧ rest.head? = some '('
    · rw [if_pos h1] at h
      cases htf : tgtFn rest.tail with
      | some pr =>
        obtain ⟨t', r'⟩ := pr
        simp only [htf] at h
        have h2 : r = r' := by
          injection h with h'
          rw [Prod.mk.injEq] at h'
          have h'' := h'.2
          rw [Prod.mk.injEq] at h''
          exact h''.2.symm
        have h3 := htgt rest.tail t' r' htf
        obtain ⟨ha, hb⟩ := h1
        cases rest with
        | nil => exact absurd hb (by simp)
        | cons d rest' =>
          rw [h2]
          simp only [List.tail_cons] at h3
          simp only [List.length_cons]
          omega
      | none =>
        simp only [htf] at h
        exact Nat.lt_trans (labScan_len tgtFn htgt fuel (']' :: acc) rest l t r h)
          (by simp only [List.length_cons]; omega)
    · rw [if_neg h1] at h
      by_cases h2 : c = '\n'
      · rw [if_pos h2] at h
        exact absurd h (by simp)
      · rw [if_neg h2] at h
        exact Nat.lt_trans (labScan_len tgtFn htgt fuel (c :: acc) rest l t r h)
          (by simp only [List.length_cons]; omega)

theorem matchAt_len (tgtFn : List Char → Option (List Char × List Char))
    (htgt : ∀ s t r, tgtFn s = some (t, r) → r.length < s.length) :
    ∀ (s l t r : List Char),
      matchAt tgtFn s = some (l, t, r) → r.length < s.length := by
  intro s l t r h
  cases s with
  | nil => exact absurd h (by simp [matchAt])
  | cons c0 s1 =>
    cases s1 with
    | nil => exact absurd h (by simp [matchAt])
    | cons c rest =>
      simp only [matchAt] at h
      by_cases h1 : c0 = '[' ∧ c ≠ '\n'
      · rw [if_pos h1] at h
        have h2 := labScan_len tgtFn htgt (rest.length + 1) [c] rest l t r h
        simp only [List.length_cons]
        omega
      · rw [if_neg h1] at h
        exact absurd h (by simp)

/-- If the replacement function succeeds on every collected target, the
substitution pass succeeds. -/
theorem subAll_isSome
    (rep : List Char → List Char → Option (List Char))
    (tgtFn : List Char → Option (List Char × List Char))
    (htgt : ∀ s t r, tgtFn s = some (t, r) → r.length < s.length) :
    ∀ (fuel : Nat) (s : List Char), s.length < fuel →
      (∀ l t, t ∈ targetsOf tgtFn fuel s → (rep l t).isSome) →
      (subAll rep tgtFn fuel s).isSome
  | 0, s, hlen, _ => absurd hlen (Nat.not_lt_zero _)
  | fuel + 1, [], _, _ => by simp [subAll]
  | fuel + 1, c :: rest, hlen, hrep => by
    cases hm : matchAt tgtFn (c :: rest) with
    | none =>
      have ih := subAll_isSome rep tgtFn htgt fuel rest
        (by simp only [List.length_cons] at hlen; omega)
        (fun l t ht => hrep l t (by simp only [targetsOf, hm]; exact ht))
      obtain ⟨tail, htail⟩ := Option.isSome_iff_exists.mp ih
      simp [subAll, hm, htail]
    | some x =>
      obtain ⟨lab, pr⟩ := x
      obtain ⟨tgt, after⟩ := pr
      have h1 : (rep lab tgt).isSome :=
        hrep lab tgt
          (by simp only [targetsOf, hm]; exact List.mem_cons_self _ _)
      obtain ⟨rr, hrr⟩ := Option.isSome_iff_exists.mp h1
      have hafter := matchAt_len tgtFn htgt (c :: rest) lab tgt after hm
      have ih := subAll_isSome rep tgtFn htgt fuel after
        (by simp only [List.length_cons] at hlen hafter ⊢; omega)
        (fun l t ht => hrep l t
          (by simp only [targetsOf, hm]; exact List.mem_cons_of_mem _ ht))
      obtain ⟨tail, htail⟩ := Option.isSome_iff_exists.mp ih
      simp [subAll, hm, hrr, htail]

/-- C6 counterexample: a link target equal to the current page's directory
strips to zero parts on both sides and the empty `os.path.join` raises, so
`resolve_links` is not total. -/
theorem C6_counterexample :
    resolveLinksStr "[x](/node)" (some "node/bar.html") (some "html") =
      none := by decide

/-- C6 (amended): link resolution succeeds whenever every absolute link
target relativizes against the current page's directory to a nonempty part
list; and a target sharing no common prefix with the page's directory
climbs the directory's full depth, one `..` per remaining segment. -/
theorem C6_resolution_amended :
    (∀ (md cd ext : List Char),
      (∀ t ∈ linkTargets md, (resolve_path t (rootJoin cd)).isSome) →
      (resolve_links md (some cd) (some ext)).isSome) ∧
    (∀ (t cd : List Char),
      stripCommon (pyParts t) (parentParts (rootJoin cd)) =
        (pyParts t, parentParts (rootJoin cd)) →
      resolve_path t (rootJoin cd) =
        osJoin (List.replicate (parentParts (rootJoin cd)).length
          ['.', '.'] ++ pyParts t)) := by
  constructor
  · intro md cd ext htargets
    have h1 : (subAll rep1 tgt1 (md.length + 1) md).isSome :=
      subAll_isSome rep1 tgt1 tgt1_len (md.length + 1) md
        (Nat.lt_succ_self _) (fun l t _ => rfl)
    obtain ⟨s1, hs1⟩ := Option.isSome_iff_exists.mp h1
    have h2 : (subAll (rep2 (some cd) (some ext)) tgt2
        (s1.length + 1) s1).isSome := by
      refine subAll_isSome _ tgt2 tgt2_len (s1.length + 1) s1
        (Nat.lt_succ_self _) ?_
      intro l t ht
      have ht' : t ∈ linkTargets md := by
        simp only [linkTargets, hs1]
        exact ht
      have hres := htargets t ht'
      simp only [rep2, resolveTarget, Option.isSome_map']
      exact hres
    simp only [resolve_links, hs1]
    exact h2
  · intro t cd hstrip
    simp only [resolve_path]
    rw [hstrip]

/-- C6 witness: the totality criterion applied to a body with one absolute
link, resolved from page `node/bar.html`. -/
theorem C6_resolution_amended_witness :
    (∀ t ∈ linkTargets ("[x](/tag/foo)" : String).data,
      (resolve_path t
        (rootJoin ("node/bar.html" : String).data)).isSome) ∧
      (resolve_links ("[x](/tag/foo)" : String).data
        (some ("node/bar.html" : String).data)
        (some ("html" : String).data)).isSome :=
  ⟨by decide,
    C6_resolution_amended.1 ("[x](/tag/foo)" : String).data
      ("node/bar.html" : String).data ("html" : String).data (by decide)⟩

end Ztk
